import Mathlib

/-!
Verification of the peekguard redaction core: the placeholder registry
(`PlaceholderManager`), the two-pass masking pipeline (`addressMask`,
`presidioMask`, `mask_sentence`) and the restoration step (`unmaskSentence`),
shallowly embedded from `peekguard/api/masking/handler.py` and
`peekguard/api/unmasking/router.py`.

Python strings are modelled as `List Char`; Python dicts as insertion-ordered
association lists (`alookup` / `ainsert`); the external detectors
(`pyap.parse`, `AnalyzerEngine.analyze`) are oracle parameters.  Python's
stable `list.sort` / `sorted` is modelled by `List.insertionSort`, which is
also stable, hence produces the identical list.
-/

set_option maxHeartbeats 1000000

abbrev Str := List Char

/-- Membership test of the regex character class `[A-Z0-9_]`. -/
def isClassChar (c : Char) : Bool :=
  ('A' ≤ c && c ≤ 'Z') || ('0' ≤ c && c ≤ '9') || c = '_'

/-- Membership test of the regex class `\d` (ASCII digits). -/
def isDigitChar (c : Char) : Bool :=
  '0' ≤ c && c ≤ '9'

/-- Decimal digit character for a value `n < 10`. -/
def digitChar (n : Nat) : Char := Char.ofNat (48 + n)

/-- Fuel-driven decimal printing (structural recursion so that the kernel
can evaluate it). -/
def natDigitsAux : Nat → Nat → List Char
  | 0, _ => []
  | fuel+1, n => if n < 10 then [digitChar n] else natDigitsAux fuel (n / 10) ++ [digitChar (n % 10)]

/-- Decimal representation of a natural number, as produced by Python's
f-string formatting of an `int`. -/
def natDigits (n : Nat) : Str := natDigitsAux (n+1) n

/-- Value of a decimal digit string, as computed by Python's `int(...)`. -/
def digitsVal (s : Str) : Nat := s.foldl (fun a c => a * 10 + (c.toNat - 48)) 0

/-- First-match lookup in an association list (Python dict lookup; keys are
unique in a real dict, so first match is the match). -/
def alookup {α β : Type} [DecidableEq α] : List (α × β) → α → Option β
  | [], _ => none
  | p :: ps, k => if p.1 = k then some p.2 else alookup ps k

/-- Python dict assignment `d[k] = v`: update in place if the key is present
(instance order preserved), otherwise append at the end. -/
def ainsert {α β : Type} [DecidableEq α] (l : List (α × β)) (k : α) (v : β) : List (α × β) :=
  if (alookup l k).isSome then l.map (fun p => if p.1 = k then (k, v) else p) else l ++ [(k, v)]

/-- Lookup in a `defaultdict(int)`: missing keys read as `0`. -/
def clookup (l : List (Str × Nat)) (k : Str) : Nat := (alookup l k).getD 0

/--
Full match of `PLACEHOLDER_REGEX = r"<([A-Z0-9_]+)_(\d+)>"` (handler.py line
14), returning the two captured groups `(entity, int(number))`.  The regex's
greedy first group forces the split at the last underscore whose suffix is
all digits, which is what the trailing-digit-run construction computes.
-/
def parsePlaceholder (s : Str) : Option (Str × Nat) :=
  match s with
  | c :: rest =>
    if c = '<' then
      match rest.reverse with
      | g :: revMid =>
        if g = '>' then
          match revMid.takeWhile isDigitChar, revMid.drop (revMid.takeWhile isDigitChar).length with
          | d :: ds, u :: revPre =>
            if u = '_' then
              if revPre.reverse ≠ [] ∧ (revPre.reverse).all isClassChar then
                some (revPre.reverse, digitsVal ((d :: ds).reverse))
              else none
            else none
          | _, _ => none
        else none
      | [] => none
    else none
  | [] => none

/-- Boolean check that a string has the shape of a placeholder token:
a single leading angle bracket, a single trailing one, none inside. -/
def canonB (k : Str) : Bool :=
  match k with
  | c :: rest =>
    (c == '<') && (rest.getLast? == some '>') &&
      rest.dropLast.all (fun x => !(x = '<' || x = '>'))
  | [] => false

/-- Boolean check that a string contains no opening angle bracket. -/
def ltFree (s : Str) : Bool := s.all (fun c => c != '<')

/-- Boolean check that an entity-type string is nonempty and drawn from the
placeholder character class. -/
def classOkB (e : Str) : Bool := !e.isEmpty && e.all isClassChar

/-!  ## The placeholder registry (`PlaceholderManager`, handler.py 20-74)  -/

structure PlaceholderManager where
  placeholder_to_pii : List (Str × Str)
  pii_to_placeholder : List ((Str × Str) × Str)
  entity_counters : List (Str × Nat)
  deriving Repr, DecidableEq

/-- One iteration of `_initialise_from_existing` (handler.py 62-74): a
malformed key is skipped, a well-formed one raises the counter and populates
the reverse index. -/
def initStep (pm : PlaceholderManager) (p : Str × Str) : PlaceholderManager :=
  match parsePlaceholder p.1 with
  | none => pm
  | some en =>
    { pm with
      entity_counters := ainsert pm.entity_counters en.1 (max (clookup pm.entity_counters en.1) en.2),
      pii_to_placeholder := ainsert pm.pii_to_placeholder (en.1, p.2) p.1 }

/-- `PlaceholderManager.__init__` (handler.py 23-29): copy the existing
mapping, then run `_initialise_from_existing` over its items in insertion
order. -/
def PlaceholderManager.init (existing : List (Str × Str)) : PlaceholderManager :=
  existing.foldl initStep
    { placeholder_to_pii := existing, pii_to_placeholder := [], entity_counters := [] }

/-- `placeholder_for` (handler.py 35-47): reuse the token recorded for the
`(entity, value)` pair, or mint `<ENTITY_{counter+1}>` and record it in both
maps. -/
def placeholder_for (pm : PlaceholderManager) (entity value : Str) : Str × PlaceholderManager :=
  match alookup pm.pii_to_placeholder (entity, value) with
  | some ph => (ph, pm)
  | none =>
    let n := clookup pm.entity_counters entity + 1
    let ph := '<' :: (entity ++ '_' :: (natDigits n ++ ['>']))
    (ph,
      { placeholder_to_pii := ainsert pm.placeholder_to_pii ph value,
        pii_to_placeholder := ainsert pm.pii_to_placeholder (entity, value) ph,
        entity_counters := ainsert pm.entity_counters entity n })

/-- The `mappings` property (handler.py 49-52): a copy of the full
placeholder-to-PII dict. -/
def PlaceholderManager.mappings (pm : PlaceholderManager) : List (Str × Str) :=
  pm.placeholder_to_pii

/-!  ## Masking engines (handler.py 82-184)  -/

/-- One address hit of `pyap.parse(text, country="US")`. -/
structure AddrMatch where
  match_start : Nat
  match_end : Nat
  full_address : Str
  deriving Repr, DecidableEq

/-- One pending replacement dict of `AddressMasker.mask` (handler.py 93-99).
The Python key `"end"` is a Lean keyword and is rendered `stop`. -/
structure Replacement where
  start : Nat
  stop : Nat
  placeholder : Str
  deriving Repr, DecidableEq

/-- The first loop of `AddressMasker.mask` (handler.py 91-99): mint a
LOCATION placeholder for each address hit, in detector order. -/
def buildAddrReplacements (pm : PlaceholderManager) :
    List AddrMatch → List Replacement × PlaceholderManager
  | [] => ([], pm)
  | a :: rest =>
    let pr := placeholder_for pm ("LOCATION".data) a.full_address
    let tail := buildAddrReplacements pr.2 rest
    (⟨a.match_start, a.match_end, pr.1⟩ :: tail.1, tail.2)

/-- Ordering used by `replacements.sort(key=lambda r: r["start"])`. -/
def replacementLE (r1 r2 : Replacement) : Prop := r1.start ≤ r2.start

instance : DecidableRel replacementLE := fun a b => Nat.decLe _ _

instance : IsTotal Replacement replacementLE := ⟨fun a b => Nat.le_total a.start b.start⟩

instance : IsTrans Replacement replacementLE := ⟨fun _ _ _ => Nat.le_trans⟩

/-- One iteration of the offset-adjusting replacement loop of
`AddressMasker.mask` (handler.py 101-111), also recording the span of the
inserted placeholder. -/
def addrApplyStep (acc : (List Char × Int) × List (Nat × Nat)) (rep : Replacement) :
    (List Char × Int) × List (Nat × Nat) :=
  let masked := acc.1.1
  let offset := acc.1.2
  let s := ((rep.start : Int) + offset).toNat
  let e := ((rep.stop : Int) + offset).toNat
  ((masked.take s ++ rep.placeholder ++ masked.drop e,
    offset + rep.placeholder.length - ((rep.stop : Int) - (rep.start : Int))),
   acc.2 ++ [(s, s + rep.placeholder.length)])

/-- `AddressMasker.mask` (handler.py 88-113) with the `pyap` hits passed in
as data: mint placeholders, sort by start, apply left to right. -/
def addressMask (pm : PlaceholderManager) (text : List Char) (hits : List AddrMatch) :
    (List Char × List (Nat × Nat)) × PlaceholderManager :=
  let built := buildAddrReplacements pm hits
  let sorted := List.insertionSort replacementLE built.1
  let res := sorted.foldl addrApplyStep ((text, 0), [])
  ((res.1.1, res.2), built.2)

/-- A `presidio_analyzer.RecognizerResult`; the Python key `end` is rendered
`stop`, and the float score is modelled as a rational. -/
structure RecognizerResult where
  start : Nat
  stop : Nat
  score : Rat
  entity_type : Str
  deriving Repr, DecidableEq

/-- Ordering used by `results.sort(key=lambda r: (r.start, -(r.end - r.start),
-r.score))` (handler.py 151). -/
def resultLE (a b : RecognizerResult) : Prop :=
  a.start < b.start ∨
    (a.start = b.start ∧
      (((b.stop : Int) - (b.start : Int) < (a.stop : Int) - (a.start : Int)) ∨
        ((a.stop : Int) - (a.start : Int) = (b.stop : Int) - (b.start : Int) ∧ b.score ≤ a.score)))

instance : DecidableRel resultLE := fun _ _ => by unfold resultLE; infer_instance

/-- `PresidioMasker._overlaps_any` (handler.py 182-184). -/
def overlapsAny (s e : Nat) (spans : List (Nat × Nat)) : Bool :=
  spans.any (fun sp => max s sp.1 < min e sp.2)

/-- Python slice `text[s:e]` for nonnegative indices. -/
def sliceOf (text : List Char) (s e : Nat) : Str := (text.take e).drop s

/-- The greedy selection loop of `PresidioMasker.mask` (handler.py 153-162):
drop candidates overlapping an excluded span, drop candidates whose matched
text is a known placeholder token, accept a candidate iff its start is at or
beyond the end of the last accepted span (`last_end` starts at `-1`). -/
def greedySelect (text : List Char) (keys : List Str) (excl : List (Nat × Nat)) :
    List RecognizerResult → Int → List RecognizerResult
  | [], _ => []
  | r :: rs, lastEnd =>
    if overlapsAny r.start r.stop excl then greedySelect text keys excl rs lastEnd
    else if sliceOf text r.start r.stop ∈ keys then greedySelect text keys excl rs lastEnd
    else if lastEnd ≤ (r.start : Int) then r :: greedySelect text keys excl rs (r.stop : Int)
    else greedySelect text keys excl rs lastEnd

/-- One iteration of the replacement loop of `PresidioMasker.mask`
(handler.py 164-174): offset-adjusted splice, placeholder minted from the
literal slice of the current text. -/
def presidioApplyStep (acc : (List Char × Int) × PlaceholderManager) (res : RecognizerResult) :
    (List Char × Int) × PlaceholderManager :=
  let masked := acc.1.1
  let offset := acc.1.2
  let s := ((res.start : Int) + offset).toNat
  let e := ((res.stop : Int) + offset).toNat
  let original_val := (masked.take e).drop s
  let pr := placeholder_for acc.2 res.entity_type original_val
  ((masked.take s ++ pr.1 ++ masked.drop e,
    offset + pr.1.length - original_val.length), pr.2)

/-- `PresidioMasker.mask` (handler.py 133-176), with `analyzer.analyze`
passed in as an oracle: empty entity list short-circuits, otherwise sort,
greedily select, and apply. -/
def presidioMask (analyze : List Char → List Str → List RecognizerResult)
    (pm : PlaceholderManager) (text : List Char) (entities : List Str)
    (excl : List (Nat × Nat)) : List Char × PlaceholderManager :=
  if entities = [] then (text, pm)
  else
    let results := analyze text entities
    let sorted := List.insertionSort resultLE results
    let chosen := greedySelect text (pm.mappings.map Prod.fst) excl sorted (-1)
    let out := chosen.foldl presidioApplyStep ((text, 0), pm)
    (out.1.1, out.2)

/-- The enumerated entity set (`peekguard/utils/entities.py`). -/
def PRESIDIO_ENTITIES : List Str :=
  ["PERSON".data, "EMAIL_ADDRESS".data, "CREDIT_CARD".data, "PHONE_NUMBER".data,
   "US_SSN".data, "IP_ADDRESS".data, "URL".data, "LOCATION".data,
   "GOVERNMENT_ID".data, "FINANCIAL_ID".data, "TECHNICAL_ID".data, "MEDICAL_ID".data,
   "SECURITY_DATA".data, "VEHICLE_ID".data, "DEMOGRAPHIC_DATA".data]

/-- `mask_sentence` (handler.py 192-277).  The analyzer presence flag, the
analyzer itself and the `pyap` parser are oracle parameters; the
`HTTPException(422, ...)` is the `Except.error` branch carrying the status
code and the offending entity list.  Python truthiness of the optional
entity list (`if presidio_entities:`) is `pes ≠ []` after defaulting `None`
to `[]`. -/
def mask_sentence (sentence : List Char) (analyzerPresent : Bool)
    (analyze : List Char → List Str → List RecognizerResult)
    (addrDetect : List Char → List AddrMatch)
    (presidio_entities : Option (List Str))
    (existing_mappings : Option (List (Str × Str))) :
    Except (Nat × List Str) (List Char × List (Str × Str)) :=
  let pes := presidio_entities.getD []
  let invalid := pes.filter (fun e => e ∉ PRESIDIO_ENTITIES)
  if pes ≠ [] ∧ invalid ≠ [] then Except.error (422, invalid)
  else if sentence = [] then Except.ok ([], [])
  else
    let pm := PlaceholderManager.init (existing_mappings.getD [])
    let effective := if pes ≠ [] then pes else PRESIDIO_ENTITIES
    let addr :=
      if "LOCATION".data ∈ effective then addressMask pm sentence (addrDetect sentence)
      else ((sentence, []), pm)
    let current := addr.1.1
    let address_spans := addr.1.2
    let pm1 := addr.2
    let effective2 :=
      if "LOCATION".data ∈ effective ∧ address_spans ≠ [] then effective.erase ("LOCATION".data)
      else effective
    let fin :=
      if analyzerPresent ∧ effective2 ≠ [] then presidioMask analyze pm1 current effective2 address_spans
      else (current, pm1)
    Except.ok (fin.1, fin.2.mappings)

/-!  ## Restoration (`_unmask_sentence`, unmasking/router.py 16-24)  -/

/-- Fuel-driven left-to-right scan of Python's `str.replace` for a nonempty
pattern: replace the leftmost occurrence, continue after the inserted
replacement.  Structural recursion on fuel keeps it kernel-evaluable. -/
def pyReplaceFuel : Nat → List Char → Str → Str → List Char
  | 0, s, _, _ => s
  | fuel+1, s, pat, rep =>
    match s with
    | [] => []
    | c :: rest =>
      if pat.isPrefixOf s then rep ++ pyReplaceFuel fuel (s.drop pat.length) pat rep
      else c :: pyReplaceFuel fuel rest pat rep

/-- Python `str.replace(pat, rep)` (all occurrences).  An empty pattern
inserts the replacement at every position, as CPython does. -/
def pyReplace (s pat rep : List Char) : List Char :=
  if pat = [] then rep ++ s.foldr (fun c acc => c :: (rep ++ acc)) []
  else pyReplaceFuel s.length s pat rep

/-- Ordering used by `sorted(mappings, key=len, reverse=True)`: descending
length, stable on ties. -/
def keyLenGE (a b : Str) : Prop := b.length ≤ a.length

instance : DecidableRel keyLenGE := fun a b => Nat.decLe _ _

/-- The replacement fold of `_unmask_sentence` (unmasking/router.py 21-23):
replace every key by its value, keys processed by decreasing token length. -/
def replaceAllKeys (mappings : List (Str × Str)) (text : List Char) : List Char :=
  (List.insertionSort keyLenGE (mappings.map Prod.fst)).foldl
    (fun result ph => pyReplace result ph ((alookup mappings ph).getD [])) text

/-- `_unmask_sentence` (unmasking/router.py 16-24): empty text or empty
mapping returns the text unchanged; otherwise run the replacement fold. -/
def unmaskSentence (masked_data : List Char) (mappings : List (Str × Str)) : List Char :=
  if masked_data = [] ∨ mappings = [] then masked_data
  else replaceAllKeys mappings masked_data

/-!  ## Proof infrastructure: relative span lists and reference splices  -/

/-- Canonical-fuel version of the nonempty-pattern replace scan. -/
def pyReplaceN (s pat rep : List Char) : List Char := pyReplaceFuel s.length s pat rep

/-- A replacement step in relative coordinates: skip `gap` characters, replace
the next `len` characters by `ph`. -/
structure RelRep where
  gap : Nat
  len : Nat
  ph : Str
  deriving Repr, DecidableEq

/-- Reference rewrite: apply a relative replacement list front to back. -/
def splice (t : List Char) : List RelRep → List Char
  | [] => t
  | r :: rs => t.take r.gap ++ r.ph ++ splice (t.drop (r.gap + r.len)) rs

/-- Number of input characters consumed by a relative replacement list. -/
def extent : List RelRep → Nat
  | [] => 0
  | r :: rs => r.gap + r.len + extent rs

/-- Output-side intervals occupied by the inserted placeholder strings. -/
def phSpans (acc : Nat) : List RelRep → List (Nat × Nat)
  | [] => []
  | r :: rs => (acc + r.gap, acc + r.gap + r.ph.length) :: phSpans (acc + r.gap + r.ph.length) rs

/-- Input-side intervals of the replaced spans. -/
def replSpans (acc : Nat) : List RelRep → List (Nat × Nat)
  | [] => []
  | r :: rs => (acc + r.gap, acc + r.gap + r.len) :: replSpans (acc + r.gap + r.len) rs

/-- The placeholder/replaced-substring pairs of a relative replacement list. -/
def sliceVals (t : List Char) : List RelRep → List (Str × Str)
  | [] => []
  | r :: rs => (r.ph, (t.drop r.gap).take r.len) :: sliceVals (t.drop (r.gap + r.len)) rs

/-- Rewrite in which the spans whose placeholder is listed in `done` have
already been restored to the original substring. -/
def partialRestore (t : List Char) (done : List Str) : List RelRep → List Char
  | [] => t
  | r :: rs =>
    t.take r.gap ++ (if r.ph ∈ done then (t.drop r.gap).take r.len else r.ph) ++
      partialRestore (t.drop (r.gap + r.len)) done rs

/-- Total output-length change of a relative replacement list. -/
def offDelta : List RelRep → Int
  | [] => 0
  | r :: rs => (r.ph.length : Int) - (r.len : Int) + offDelta rs

/-- Conversion of an absolute, chained replacement list to relative steps. -/
def toRel (b : Nat) : List Replacement → List RelRep
  | [] => []
  | r :: rs => ⟨r.start - b, r.stop - r.start, r.placeholder⟩ :: toRel r.stop rs

/-- Reference recursion for the Presidio replacement loop: mint each span's
placeholder from the literal slice of the pass's input text, producing the
relative replacement list and the final registry. -/
def presidioChosenRel (pm : PlaceholderManager) (t : List Char) (b : Nat) :
    List RecognizerResult → List RelRep × PlaceholderManager
  | [] => ([], pm)
  | r :: rs =>
    let v := (t.drop r.start).take (r.stop - r.start)
    let pr := placeholder_for pm r.entity_type v
    let rest := presidioChosenRel pr.2 t r.stop rs
    (⟨r.start - b, r.stop - r.start, pr.1⟩ :: rest.1, rest.2)

/-- Bool check that an absolute replacement list is chained (each span well
formed, starting at or after `b` and after the previous span) and within a
text of length `n`. -/
def repChainB (b n : Nat) : List Replacement → Bool
  | [] => true
  | r :: rs => b ≤ r.start && r.start < r.stop && r.stop ≤ n && repChainB r.stop n rs

/-- Bool check that a recognizer-result list is chained and within bounds. -/
def resChainB (b n : Nat) : List RecognizerResult → Bool
  | [] => true
  | r :: rs => b ≤ r.start && r.start < r.stop && r.stop ≤ n && resChainB r.stop n rs

/-- Bool check that every element of a list is pairwise compatible with all
later elements. -/
def pairwiseB {α : Type} (ok : α → α → Bool) : List α → Bool
  | [] => true
  | a :: l => l.all (ok a) && pairwiseB ok l

/-- Two half-open intervals do not overlap. -/
def spansDisjointB (p q : Nat × Nat) : Bool := !(max p.1 q.1 < min p.2 q.2)

/-- Well-formedness of one address hit against a text of length `n`. -/
def addrWfB (n : Nat) (a : AddrMatch) : Bool := a.match_start < a.match_end && a.match_end ≤ n

/-- Well-formedness of one recognizer result against a text of length `n`. -/
def resWfB (n : Nat) (r : RecognizerResult) : Bool :=
  r.start < r.stop && r.stop ≤ n && classOkB r.entity_type

/-- The registry invariant maintained by seeding and minting: distinct keys,
canonical keys with bracket-free values, counters dominating every parsed
suffix, and a reverse index consistent with the forward map. -/
def PMInv (pm : PlaceholderManager) : Prop :=
  (pm.placeholder_to_pii.map Prod.fst).Nodup ∧
  (∀ p ∈ pm.placeholder_to_pii, canonB p.1 = true ∧ ltFree p.2 = true) ∧
  (∀ p ∈ pm.placeholder_to_pii, ∀ en, parsePlaceholder p.1 = some en →
    en.2 ≤ clookup pm.entity_counters en.1) ∧
  (∀ q ∈ pm.pii_to_placeholder, alookup pm.placeholder_to_pii q.2 = some q.1.2)

/-!  ## Lemmas: characters and decimal digits  -/

theorem isClassChar_ne_lt {c : Char} (h : isClassChar c = true) : c ≠ '<' := by
  intro hc; subst hc; simp [isClassChar] at h

theorem isClassChar_ne_gt {c : Char} (h : isClassChar c = true) : c ≠ '>' := by
  intro hc; subst hc; simp [isClassChar] at h

theorem isDigitChar_ne_lt {c : Char} (h : isDigitChar c = true) : c ≠ '<' := by
  intro hc; subst hc; simp [isDigitChar] at h

theorem isDigitChar_ne_gt {c : Char} (h : isDigitChar c = true) : c ≠ '>' := by
  intro hc; subst hc; simp [isDigitChar] at h

theorem isDigitChar_ne_us {c : Char} (h : isDigitChar c = true) : c ≠ '_' := by
  intro hc; subst hc; simp [isDigitChar] at h

theorem isDigitChar_isClassChar {c : Char} (h : isDigitChar c = true) : isClassChar c = true := by
  simp [isDigitChar] at h
  simp [isClassChar]
  tauto

theorem natDigitsAux_eq {f n : Nat} (h : n < f) : natDigitsAux f n = natDigits n := by
  induction n using Nat.strong_induction_on generalizing f with
  | _ n ih =>
    match f, h with
    | f + 1, h =>
      by_cases h10 : n < 10
      · simp [natDigitsAux, natDigits, h10]
      · have hdiv : n / 10 < n := Nat.div_lt_self (by omega) (by omega)
        have h1 : natDigitsAux (f + 1) n = natDigitsAux f (n / 10) ++ [digitChar (n % 10)] := by
          simp [natDigitsAux, h10]
        have h2 : natDigits n = natDigitsAux n (n / 10) ++ [digitChar (n % 10)] := by
          simp [natDigits, natDigitsAux, h10]
        rw [h1, h2, ih (n / 10) hdiv (by omega), ih (n / 10) hdiv (by omega)]

theorem natDigits_cons {n : Nat} (h : ¬ n < 10) :
    natDigits n = natDigits (n / 10) ++ [digitChar (n % 10)] := by
  have : natDigits n = natDigitsAux n (n / 10) ++ [digitChar (n % 10)] := by
    simp [natDigits, natDigitsAux, h]
  rw [this, natDigitsAux_eq (Nat.div_lt_self (by omega) (by omega))]

theorem natDigits_small {n : Nat} (h : n < 10) : natDigits n = [digitChar n] := by
  simp [natDigits, natDigitsAux, h]

theorem natDigits_digit {n : Nat} : ∀ c ∈ natDigits n, isDigitChar c = true := by
  induction n using Nat.strong_induction_on with
  | _ n ih =>
    by_cases h10 : n < 10
    · rw [natDigits_small h10]
      intro c hc
      simp at hc
      subst hc
      interval_cases n <;> decide
    · rw [natDigits_cons h10]
      intro c hc
      rw [List.mem_append] at hc
      rcases hc with hc | hc
      · exact ih (n / 10) (Nat.div_lt_self (by omega) (by omega)) c hc
      · simp at hc
        subst hc
        have hm : n % 10 < 10 := Nat.mod_lt _ (by omega)
        set m := n % 10 with hmdef
        interval_cases m <;> decide

theorem natDigits_ne_nil {n : Nat} : natDigits n ≠ [] := by
  by_cases h10 : n < 10
  · rw [natDigits_small h10]; simp
  · rw [natDigits_cons h10]; simp

theorem digitsVal_append_digit {s : Str} {c : Char} :
    digitsVal (s ++ [c]) = digitsVal s * 10 + (c.toNat - 48) := by
  simp [digitsVal, List.foldl_append]

theorem toNat_digitChar {n : Nat} (h : n < 10) : (digitChar n).toNat = 48 + n := by
  interval_cases n <;> decide

theorem digitsVal_natDigits {n : Nat} : digitsVal (natDigits n) = n := by
  induction n using Nat.strong_induction_on with
  | _ n ih =>
    by_cases h10 : n < 10
    · rw [natDigits_small h10]
      simp [digitsVal, toNat_digitChar h10]
    · rw [natDigits_cons h10, digitsVal_append_digit,
        ih (n / 10) (Nat.div_lt_self (by omega) (by omega)),
        toNat_digitChar (Nat.mod_lt _ (by omega))]
      omega

theorem natDigits_inj {m n : Nat} (h : natDigits m = natDigits n) : m = n := by
  have := digitsVal_natDigits (n := m)
  rw [h, digitsVal_natDigits] at this
  omega

/-!  ## Lemmas: association lists  -/

theorem alookup_append {α β : Type} [DecidableEq α] (l1 l2 : List (α × β)) (k : α) :
    alookup (l1 ++ l2) k = ((alookup l1 k).rec (alookup l2 k) (fun v => some v)) := by
  induction l1 with
  | nil => simp [alookup]
  | cons p ps ih =>
    by_cases h : p.1 = k
    · simp [alookup, h]
    · simp [alookup, h, ih]

theorem mem_of_alookup {α β : Type} [DecidableEq α] {l : List (α × β)} {k : α} {v : β}
    (h : alookup l k = some v) : (k, v) ∈ l := by
  induction l with
  | nil => simp [alookup] at h
  | cons p ps ih =>
    by_cases hp : p.1 = k
    · simp [alookup, hp] at h
      have hpv : p = (k, v) := by
        obtain ⟨a, b⟩ := p
        simp only at hp h
        rw [hp, h]
      rw [← hpv]
      exact List.mem_cons_self _ _
    · simp [alookup, hp] at h
      exact List.mem_cons_of_mem _ (ih h)

theorem alookup_isSome_iff {α β : Type} [DecidableEq α] {l : List (α × β)} {k : α} :
    (alookup l k).isSome = true ↔ k ∈ l.map Prod.fst := by
  induction l with
  | nil => simp [alookup]
  | cons p ps ih =>
    by_cases hp : p.1 = k
    · simp [alookup, hp]
    · simp [alookup, hp, ih, Ne.symm hp]

theorem alookup_of_mem_nodup {α β : Type} [DecidableEq α] {l : List (α × β)} {k : α} {v : β}
    (hmem : (k, v) ∈ l) (hnd : (l.map Prod.fst).Nodup) : alookup l k = some v := by
  induction l with
  | nil => simp at hmem
  | cons p ps ih =>
    simp only [List.map_cons, List.nodup_cons] at hnd
    rcases List.mem_cons.mp hmem with h | h
    · rw [← h]
      simp [alookup]
    · have hk : p.1 ≠ k := by
        intro he
        exact hnd.1 (he ▸ (List.mem_map.mpr ⟨(k, v), h, rfl⟩))
      simp [alookup, hk]
      exact ih h hnd.2

theorem ainsert_fresh {α β : Type} [DecidableEq α] {l : List (α × β)} {k : α} (v : β)
    (h : alookup l k = none) : ainsert l k v = l ++ [(k, v)] := by
  simp [ainsert, h]

theorem alookup_update_self {α β : Type} [DecidableEq α] (l : List (α × β)) (k : α) (v : β)
    (h : (alookup l k).isSome = true) :
    alookup (l.map (fun p => if p.1 = k then (k, v) else p)) k = some v := by
  induction l with
  | nil => simp [alookup] at h
  | cons p ps ih =>
    by_cases hp : p.1 = k
    · simp [alookup, hp]
    · simp only [alookup, hp, if_false] at h
      simp only [List.map_cons, hp, if_false, alookup, ih h]

theorem alookup_update_ne {α β : Type} [DecidableEq α] (l : List (α × β)) (k k2 : α) (v : β)
    (h : k2 ≠ k) :
    alookup (l.map (fun p => if p.1 = k then (k, v) else p)) k2 = alookup l k2 := by
  induction l with
  | nil => rfl
  | cons p ps ih =>
    by_cases hp : p.1 = k
    · have h1 : ¬ (k = k2) := Ne.symm h
      have h2 : ¬ (p.1 = k2) := by rw [hp]; exact Ne.symm h
      simp only [List.map_cons, hp, if_true, alookup, h1, if_false, h2, ih]
    · simp only [List.map_cons, hp, if_false, alookup, ih]

theorem alookup_ainsert_self {α β : Type} [DecidableEq α] (l : List (α × β)) (k : α) (v : β) :
    alookup (ainsert l k v) k = some v := by
  unfold ainsert
  by_cases h : (alookup l k).isSome = true
  · rw [if_pos h]
    exact alookup_update_self l k v h
  · rw [if_neg h]
    rw [Option.not_isSome_iff_eq_none] at h
    rw [alookup_append, h]
    simp [alookup]

theorem alookup_ainsert_ne {α β : Type} [DecidableEq α] (l : List (α × β)) (k k2 : α) (v : β)
    (h : k2 ≠ k) : alookup (ainsert l k v) k2 = alookup l k2 := by
  unfold ainsert
  by_cases hs : (alookup l k).isSome = true
  · rw [if_pos hs]
    exact alookup_update_ne l k k2 v h
  · rw [if_neg hs]
    rw [alookup_append]
    cases hl : alookup l k2 with
    | some v2 => simp
    | none => simp [alookup, Ne.symm h]

theorem map_fst_update {α β : Type} [DecidableEq α] (l : List (α × β)) (k : α) (v : β) :
    (l.map (fun p => if p.1 = k then (k, v) else p)).map Prod.fst = l.map Prod.fst := by
  induction l with
  | nil => rfl
  | cons p ps ih =>
    by_cases hp : p.1 = k
    · simp only [List.map_cons, hp, if_true, ih]
    · simp only [List.map_cons, hp, if_false, ih]

theorem ainsert_keys_update {α β : Type} [DecidableEq α] {l : List (α × β)} {k : α} (v : β)
    (h : (alookup l k).isSome = true) : (ainsert l k v).map Prod.fst = l.map Prod.fst := by
  unfold ainsert
  rw [if_pos h]
  exact map_fst_update l k v

theorem ainsert_keys_append {α β : Type} [DecidableEq α] {l : List (α × β)} {k : α} (v : β)
    (h : alookup l k = none) : (ainsert l k v).map Prod.fst = l.map Prod.fst ++ [k] := by
  rw [ainsert_fresh v h]
  simp

theorem mem_ainsert {α β : Type} [DecidableEq α] {l : List (α × β)} {k : α} {v : β} {p : α × β}
    (h : p ∈ ainsert l k v) : p = (k, v) ∨ p ∈ l := by
  unfold ainsert at h
  by_cases hs : (alookup l k).isSome = true
  · rw [if_pos hs] at h
    rw [List.mem_map] at h
    obtain ⟨q, hq, hqe⟩ := h
    by_cases hqk : q.1 = k
    · rw [if_pos hqk] at hqe
      left
      exact hqe.symm
    · rw [if_neg hqk] at hqe
      right
      rw [← hqe]
      exact hq
  · rw [if_neg hs] at h
    rw [List.mem_append] at h
    rcases h with h | h
    · right; exact h
    · left; simpa using h

theorem nodup_ainsert {α β : Type} [DecidableEq α] {l : List (α × β)} {k : α} (v : β)
    (h : (l.map Prod.fst).Nodup) : ((ainsert l k v).map Prod.fst).Nodup := by
  by_cases hs : (alookup l k).isSome = true
  · rw [ainsert_keys_update v hs]; exact h
  · rw [Option.not_isSome_iff_eq_none] at hs
    rw [ainsert_keys_append v hs]
    rw [List.nodup_append]
    refine ⟨h, List.nodup_singleton _, ?_⟩
    intro a ha
    simp only [List.mem_singleton]
    intro he
    subst he
    have : (alookup l a).isSome = true := alookup_isSome_iff.mpr ha
    rw [hs] at this
    simp at this

/-!  ## Lemmas: canonical placeholder shape and the regex parser  -/

theorem ltFree_iff {s : Str} : ltFree s = true ↔ ∀ c ∈ s, c ≠ '<' := by
  simp [ltFree, List.all_eq_true]

theorem canonB_iff {k : Str} : canonB k = true ↔
    ∃ body, k = '<' :: (body ++ ['>']) ∧ ∀ c ∈ body, c ≠ '<' ∧ c ≠ '>' := by
  constructor
  · intro h
    match k with
    | [] => simp [canonB] at h
    | c :: rest =>
      simp only [canonB, Bool.and_eq_true, beq_iff_eq, List.all_eq_true] at h
      obtain ⟨⟨hc, hlast⟩, hall⟩ := h
      subst hc
      rcases List.eq_nil_or_concat rest with hr | ⟨as, a, hr⟩
      · subst hr; simp at hlast
      · rw [List.concat_eq_append] at hr
        subst hr
        rw [List.getLast?_concat] at hlast
        simp only [Option.some.injEq] at hlast
        subst hlast
        rw [List.dropLast_concat] at hall
        refine ⟨as, rfl, fun c hc => ?_⟩
        have := hall c hc
        simp only [Bool.not_eq_eq_eq_not, Bool.not_true, Bool.or_eq_false_iff,
          decide_eq_false_iff_not] at this
        exact this
  · rintro ⟨body, rfl, hb⟩
    simp only [canonB, Bool.and_eq_true, beq_iff_eq, List.all_eq_true]
    rw [List.getLast?_concat, List.dropLast_concat]
    refine ⟨by simp, fun c hc => ?_⟩
    have := hb c hc
    simp only [Bool.not_eq_eq_eq_not, Bool.not_true, Bool.or_eq_false_iff,
      decide_eq_false_iff_not]
    exact this

theorem classOkB_iff {e : Str} : classOkB e = true ↔ e ≠ [] ∧ ∀ c ∈ e, isClassChar c = true := by
  simp [classOkB, List.all_eq_true, List.isEmpty_iff]

theorem takeWhile_all_append {p : Char → Bool} {xs : List Char} {y : Char} {ys : List Char}
    (hxs : ∀ c ∈ xs, p c = true) (hy : p y = false) :
    (xs ++ y :: ys).takeWhile p = xs := by
  induction xs with
  | nil => simp [List.takeWhile, hy]
  | cons x xt ih =>
    have hx : p x = true := hxs x (List.mem_cons_self _ _)
    simp only [List.cons_append, List.takeWhile_cons, hx, if_true]
    rw [ih (fun c hc => hxs c (List.mem_cons_of_mem _ hc))]

theorem parse_some_canonB {s : Str} {en : Str × Nat}
    (h : parsePlaceholder s = some en) : canonB s = true := by
  unfold parsePlaceholder at h
  split at h
  case _ c rest =>
    split at h
    case isFalse => exact absurd h (by simp)
    case isTrue hc =>
      subst hc
      split at h
      case _ g revMid heq =>
        split at h
        case isFalse => exact absurd h (by simp)
        case isTrue hg =>
          subst hg
          split at h
          case _ d ds u revPre hds hdrop =>
            split at h
            case isFalse => exact absurd h (by simp)
            case isTrue hu =>
              subst hu
              split at h
              case isFalse => exact absurd h (by simp)
              case isTrue hcond =>
                have hrest : rest = revMid.reverse ++ ['>'] := by
                  have h2 := congrArg List.reverse heq
                  simpa using h2
                obtain ⟨tl, htl⟩ := List.takeWhile_prefix (l := revMid) isDigitChar
                have htl2 : revMid.drop (revMid.takeWhile isDigitChar).length = tl := by
                  have h3 : (revMid.takeWhile isDigitChar ++ tl).drop
                      (revMid.takeWhile isDigitChar).length = tl := List.drop_left _ _
                  rw [htl] at h3
                  exact h3
                have htlv : tl = '_' :: revPre := by rw [← htl2, hdrop]
                have hrm : revMid = (d :: ds) ++ '_' :: revPre := by
                  rw [← htl, hds, htlv]
                subst hrest
                rw [canonB_iff]
                refine ⟨revMid.reverse, rfl, fun c hc => ?_⟩
                rw [List.mem_reverse] at hc
                rw [hrm] at hc
                simp only [List.cons_append, List.mem_cons, List.mem_append] at hc
                rcases hc with hc | hc
                · have hd : isDigitChar c = true := by
                    have hmem : c ∈ revMid.takeWhile isDigitChar := by
                      rw [hds, hc]; exact List.mem_cons_self _ _
                    exact List.mem_takeWhile_imp hmem
                  exact ⟨isDigitChar_ne_lt hd, isDigitChar_ne_gt hd⟩
                rcases hc with hc | hc
                · have hd : isDigitChar c = true := by
                    have hmem : c ∈ revMid.takeWhile isDigitChar := by
                      rw [hds]; exact List.mem_cons_of_mem _ hc
                    exact List.mem_takeWhile_imp hmem
                  exact ⟨isDigitChar_ne_lt hd, isDigitChar_ne_gt hd⟩
                rcases hc with hc | hc
                · subst hc; exact ⟨by decide, by decide⟩
                · have hcl : isClassChar c = true := by
                    obtain ⟨-, hall⟩ := hcond
                    rw [List.all_eq_true] at hall
                    exact hall c (by rw [List.mem_reverse]; exact hc)
                  exact ⟨isClassChar_ne_lt hcl, isClassChar_ne_gt hcl⟩
          case _ => exact absurd h (by simp)
      case _ => exact absurd h (by simp)
  case _ => exact absurd h (by simp)

theorem parse_minted {e : Str} {n : Nat} (he : classOkB e = true) :
    parsePlaceholder ('<' :: (e ++ '_' :: (natDigits n ++ ['>']))) = some (e, n) := by
  obtain ⟨hne, hall⟩ := classOkB_iff.mp he
  have hballl : e.all isClassChar = true := List.all_eq_true.mpr hall
  have hrev : (e ++ '_' :: (natDigits n ++ ['>'])).reverse
      = '>' :: ((natDigits n).reverse ++ '_' :: e.reverse) := by
    simp
  have htw : ((natDigits n).reverse ++ '_' :: e.reverse).takeWhile isDigitChar
      = (natDigits n).reverse := by
    refine takeWhile_all_append (fun c hc => ?_) (by decide)
    exact natDigits_digit c (List.mem_reverse.mp hc)
  have hdrop : ((natDigits n).reverse ++ '_' :: e.reverse).drop ((natDigits n).reverse).length
      = '_' :: e.reverse := List.drop_left _ _
  obtain ⟨d0, dtl, hD⟩ : ∃ d0 dtl, (natDigits n).reverse = d0 :: dtl := by
    have hnn : (natDigits n).reverse ≠ [] := by
      simp [natDigits_ne_nil]
    exact List.exists_cons_of_ne_nil hnn
  simp only [parsePlaceholder]
  rw [if_pos trivial]
  rw [hrev]
  simp only []
  rw [if_pos trivial]
  rw [htw, hdrop, hD]
  simp only []
  rw [if_pos trivial]
  rw [if_pos (by rw [List.reverse_reverse]; exact ⟨hne, hballl⟩)]
  rw [← hD, List.reverse_reverse, List.reverse_reverse, digitsVal_natDigits]

/-!  ## Lemmas: the placeholder registry  -/

theorem clookup_ainsert_self (l : List (Str × Nat)) (k : Str) (n : Nat) :
    clookup (ainsert l k n) k = n := by
  unfold clookup
  rw [alookup_ainsert_self]
  rfl

theorem clookup_ainsert_ne (l : List (Str × Nat)) (k k2 : Str) (n : Nat) (h : k2 ≠ k) :
    clookup (ainsert l k n) k2 = clookup l k2 := by
  unfold clookup
  rw [alookup_ainsert_ne _ _ _ _ h]

theorem placeholder_for_spec {pm : PlaceholderManager} {e v : Str}
    (hinv : PMInv pm) (he : classOkB e = true) (hv : ltFree v = true) :
    PMInv (placeholder_for pm e v).2 ∧ canonB (placeholder_for pm e v).1 = true ∧
    alookup (placeholder_for pm e v).2.placeholder_to_pii (placeholder_for pm e v).1 = some v ∧
    (∀ k w, alookup pm.placeholder_to_pii k = some w →
      alookup (placeholder_for pm e v).2.placeholder_to_pii k = some w) ∧
    (∀ k, clookup pm.entity_counters k ≤ clookup (placeholder_for pm e v).2.entity_counters k) := by
  obtain ⟨hnd, hcv, hcnt, hrev⟩ := hinv
  unfold placeholder_for
  cases hlook : alookup pm.pii_to_placeholder (e, v) with
  | some ph =>
    simp only
    have hq : ((e, v), ph) ∈ pm.pii_to_placeholder := mem_of_alookup hlook
    have hmap : alookup pm.placeholder_to_pii ph = some v := hrev _ hq
    have hmem : (ph, v) ∈ pm.placeholder_to_pii := mem_of_alookup hmap
    exact ⟨⟨hnd, hcv, hcnt, hrev⟩, (hcv _ hmem).1, hmap, fun _ _ h => h, fun _ => le_refl _⟩
  | none =>
    simp only
    set n := clookup pm.entity_counters e + 1 with hn
    set ph := '<' :: (e ++ '_' :: (natDigits n ++ ['>'])) with hph
    have hparse : parsePlaceholder ph = some (e, n) := parse_minted he
    have hfresh : alookup pm.placeholder_to_pii ph = none := by
      cases hw : alookup pm.placeholder_to_pii ph with
      | none => rfl
      | some w =>
        have hm : (ph, w) ∈ pm.placeholder_to_pii := mem_of_alookup hw
        have hle := hcnt _ hm (e, n) hparse
        simp only at hle
        omega
    have hmap2 : ainsert pm.placeholder_to_pii ph v = pm.placeholder_to_pii ++ [(ph, v)] :=
      ainsert_fresh v hfresh
    have hpres : ∀ k w, alookup pm.placeholder_to_pii k = some w →
        alookup (ainsert pm.placeholder_to_pii ph v) k = some w := by
      intro k w hk
      rw [hmap2, alookup_append, hk]
    have hself : alookup (ainsert pm.placeholder_to_pii ph v) ph = some v :=
      alookup_ainsert_self _ _ _
    refine ⟨⟨?_, ?_, ?_, ?_⟩, parse_some_canonB hparse, hself, hpres, ?_⟩
    · exact nodup_ainsert _ hnd
    · intro p hp
      rcases mem_ainsert hp with hp | hp
      · subst hp
        exact ⟨parse_some_canonB hparse, hv⟩
      · exact hcv _ hp
    · intro p hp en hpen
      rcases mem_ainsert hp with hp | hp
      · subst hp
        simp only at hpen
        rw [hparse] at hpen
        obtain ⟨h1, h2⟩ := Prod.mk.injEq .. ▸ (Option.some.injEq _ _ ▸ hpen)
        rw [← h1, ← h2]
        rw [clookup_ainsert_self]
      · have hold := hcnt _ hp en hpen
        by_cases hek : en.1 = e
        · rw [hek, clookup_ainsert_self]
          rw [hek] at hold
          omega
        · rw [clookup_ainsert_ne _ _ _ _ hek]
          exact hold
    · intro q hq
      rcases mem_ainsert hq with hq | hq
      · subst hq
        exact hself
      · exact hpres _ _ (hrev _ hq)
    · intro k
      by_cases hk : k = e
      · subst hk
        rw [clookup_ainsert_self]
        omega
      · rw [clookup_ainsert_ne _ _ _ _ hk]

theorem initStep_map (pm : PlaceholderManager) (p : Str × Str) :
    (initStep pm p).placeholder_to_pii = pm.placeholder_to_pii := by
  unfold initStep
  cases parsePlaceholder p.1 <;> rfl

theorem initStep_counters_mono (pm : PlaceholderManager) (p : Str × Str) (k : Str) :
    clookup pm.entity_counters k ≤ clookup (initStep pm p).entity_counters k := by
  unfold initStep
  cases hp : parsePlaceholder p.1 with
  | none => exact le_refl _
  | some en =>
    simp only
    by_cases hk : k = en.1
    · subst hk
      rw [clookup_ainsert_self]
      omega
    · rw [clookup_ainsert_ne _ _ _ _ hk]

theorem initFold_spec (seed : List (Str × Str)) (hnd : (seed.map Prod.fst).Nodup) :
    ∀ (l : List (Str × Str)) (pm0 : PlaceholderManager),
    pm0.placeholder_to_pii = seed →
    (∀ q ∈ pm0.pii_to_placeholder, alookup seed q.2 = some q.1.2) →
    (∀ p ∈ l, p ∈ seed) →
    (l.foldl initStep pm0).placeholder_to_pii = seed ∧
    (∀ q ∈ (l.foldl initStep pm0).pii_to_placeholder, alookup seed q.2 = some q.1.2) ∧
    (∀ k, clookup pm0.entity_counters k ≤ clookup (l.foldl initStep pm0).entity_counters k) ∧
    (∀ p ∈ l, ∀ en, parsePlaceholder p.1 = some en →
      en.2 ≤ clookup (l.foldl initStep pm0).entity_counters en.1) := by
  intro l
  induction l with
  | nil =>
    intro pm0 hmap hrev hl
    exact ⟨hmap, hrev, fun _ => le_refl _, fun p hp => absurd hp (by simp)⟩
  | cons p ps ih =>
    intro pm0 hmap hrev hl
    have hpseed : p ∈ seed := hl p (List.mem_cons_self _ _)
    have hmap1 : (initStep pm0 p).placeholder_to_pii = seed := by
      rw [initStep_map, hmap]
    have hrev1 : ∀ q ∈ (initStep pm0 p).pii_to_placeholder, alookup seed q.2 = some q.1.2 := by
      intro q hq
      unfold initStep at hq
      cases hp : parsePlaceholder p.1 with
      | none =>
        rw [hp] at hq
        exact hrev q hq
      | some en =>
        rw [hp] at hq
        simp only at hq
        rcases mem_ainsert hq with hq | hq
        · subst hq
          exact alookup_of_mem_nodup hpseed hnd
        · exact hrev q hq
    have hstep := ih (initStep pm0 p) hmap1 hrev1 (fun q hq => hl q (List.mem_cons_of_mem _ hq))
    obtain ⟨h1, h2, h3, h4⟩ := hstep
    refine ⟨h1, h2, ?_, ?_⟩
    · intro k
      exact le_trans (initStep_counters_mono pm0 p k) (h3 k)
    · intro q hq en hen
      rcases List.mem_cons.mp hq with hq | hq
      · subst hq
        have hbase : en.2 ≤ clookup (initStep pm0 q).entity_counters en.1 := by
          unfold initStep
          rw [hen]
          simp only
          rw [clookup_ainsert_self]
          omega
        exact le_trans hbase (h3 en.1)
      · exact h4 q hq en hen

theorem init_spec {seed : List (Str × Str)} (hnd : (seed.map Prod.fst).Nodup) :
    (PlaceholderManager.init seed).placeholder_to_pii = seed ∧
    (∀ q ∈ (PlaceholderManager.init seed).pii_to_placeholder,
      alookup seed q.2 = some q.1.2) ∧
    (∀ p ∈ seed, ∀ en, parsePlaceholder p.1 = some en →
      en.2 ≤ clookup (PlaceholderManager.init seed).entity_counters en.1) := by
  have h := initFold_spec seed hnd seed
    { placeholder_to_pii := seed, pii_to_placeholder := [], entity_counters := [] }
    rfl (by intro q hq; simp at hq) (fun p hp => hp)
  exact ⟨h.1, h.2.1, h.2.2.2⟩

theorem init_PMInv {seed : List (Str × Str)} (hnd : (seed.map Prod.fst).Nodup)
    (hk : ∀ p ∈ seed, (parsePlaceholder p.1).isSome = true ∧ ltFree p.2 = true) :
    PMInv (PlaceholderManager.init seed) := by
  obtain ⟨hmap, hrev, hcnt⟩ := init_spec hnd
  refine ⟨by rw [hmap]; exact hnd, ?_, ?_, ?_⟩
  · intro p hp
    rw [hmap] at hp
    obtain ⟨hps, hlf⟩ := hk p hp
    obtain ⟨en, hen⟩ := Option.isSome_iff_exists.mp hps
    exact ⟨parse_some_canonB hen, hlf⟩
  · intro p hp en hen
    rw [hmap] at hp
    exact hcnt p hp en hen
  · intro q hq
    rw [hmap]
    exact hrev q hq

theorem buildAddr_spec {pm : PlaceholderManager} {hits : List AddrMatch}
    (hinv : PMInv pm) (hv : ∀ a ∈ hits, ltFree a.full_address = true) :
    PMInv (buildAddrReplacements pm hits).2 ∧
    (∀ k w, alookup pm.placeholder_to_pii k = some w →
      alookup (buildAddrReplacements pm hits).2.placeholder_to_pii k = some w) ∧
    (∀ r ∈ (buildAddrReplacements pm hits).1, canonB r.placeholder = true ∧
      ∃ a ∈ hits, r.start = a.match_start ∧ r.stop = a.match_end ∧
        alookup (buildAddrReplacements pm hits).2.placeholder_to_pii r.placeholder
          = some a.full_address) := by
  induction hits generalizing pm with
  | nil => exact ⟨hinv, fun _ _ h => h, by simp [buildAddrReplacements]⟩
  | cons a rest ih =>
    have hcl : classOkB ("LOCATION".data) = true := by decide
    have hva : ltFree a.full_address = true := hv a (List.mem_cons_self _ _)
    obtain ⟨hinv1, hcanon, hself, hpres, hmono⟩ := placeholder_for_spec hinv hcl hva
    obtain ⟨hinv2, hpres2, hmem⟩ := ih hinv1 (fun x hx => hv x (List.mem_cons_of_mem _ hx))
    unfold buildAddrReplacements
    simp only
    refine ⟨hinv2, ?_, ?_⟩
    · intro k w hk
      exact hpres2 _ _ (hpres _ _ hk)
    · intro r hr
      rcases List.mem_cons.mp hr with hr | hr
      · subst hr
        exact ⟨hcanon, a, List.mem_cons_self _ _, rfl, rfl, hpres2 _ _ hself⟩
      · obtain ⟨hc, a2, ha2, h1, h2, h3⟩ := hmem r hr
        exact ⟨hc, a2, List.mem_cons_of_mem _ ha2, h1, h2, h3⟩

theorem resChainB_cons {b n : Nat} {r : RecognizerResult} {rs : List RecognizerResult} :
    resChainB b n (r :: rs) = true ↔
    b ≤ r.start ∧ r.start < r.stop ∧ r.stop ≤ n ∧ resChainB r.stop n rs = true := by
  simp [resChainB, Bool.and_eq_true, and_assoc]

theorem sliceVals_fst (rel : List RelRep) : ∀ t : List Char,
    (sliceVals t rel).map Prod.fst = rel.map (fun r => r.ph) := by
  induction rel with
  | nil => intro t; rfl
  | cons r rs ih => intro t; simp [sliceVals, ih]

theorem presidioRel_replSpans {t : List Char} :
    ∀ (chosen : List RecognizerResult) (pm : PlaceholderManager) (b : Nat),
    resChainB b t.length chosen = true →
    replSpans b (presidioChosenRel pm t b chosen).1 = chosen.map (fun r => (r.start, r.stop)) := by
  intro chosen
  induction chosen with
  | nil => intro pm b _; rfl
  | cons r rs ih =>
    intro pm b hchain
    obtain ⟨h1, h2, h3, h4⟩ := resChainB_cons.mp hchain
    unfold presidioChosenRel
    simp only [replSpans, List.map_cons]
    have hs : b + (r.start - b) = r.start := by omega
    rw [hs]
    have he2 : r.start + (r.stop - r.start) = r.stop := by omega
    rw [he2]
    rw [ih _ r.stop h4]

theorem presidioRel_extent {t : List Char} :
    ∀ (chosen : List RecognizerResult) (pm : PlaceholderManager) (b : Nat),
    resChainB b t.length chosen = true →
    extent (presidioChosenRel pm t b chosen).1 ≤ t.length - b := by
  intro chosen
  induction chosen with
  | nil => intro pm b hchain; simp [presidioChosenRel, extent]
  | cons r rs ih =>
    intro pm b hchain
    obtain ⟨h1, h2, h3, h4⟩ := resChainB_cons.mp hchain
    unfold presidioChosenRel
    simp only [extent]
    have := ih (placeholder_for pm r.entity_type ((t.drop r.start).take (r.stop - r.start))).2
      r.stop h4
    omega

theorem presidioRel_len_pos {t : List Char} :
    ∀ (chosen : List RecognizerResult) (pm : PlaceholderManager) (b : Nat),
    resChainB b t.length chosen = true →
    ∀ rr ∈ (presidioChosenRel pm t b chosen).1, 1 ≤ rr.len := by
  intro chosen
  induction chosen with
  | nil => intro pm b _ rr hrr; simp [presidioChosenRel] at hrr
  | cons r rs ih =>
    intro pm b hchain rr hrr
    obtain ⟨h1, h2, h3, h4⟩ := resChainB_cons.mp hchain
    unfold presidioChosenRel at hrr
    simp only [List.mem_cons] at hrr
    rcases hrr with hrr | hrr
    · subst hrr; simp; omega
    · exact ih _ r.stop h4 rr hrr

theorem presidioChosenRel_spec {t : List Char} :
    ∀ (chosen : List RecognizerResult) (pm : PlaceholderManager) (b : Nat),
    PMInv pm →
    resChainB b t.length chosen = true →
    (∀ r ∈ chosen, classOkB r.entity_type = true) →
    (∀ r ∈ chosen, ltFree ((t.drop r.start).take (r.stop - r.start)) = true) →
    PMInv (presidioChosenRel pm t b chosen).2 ∧
    (∀ k w, alookup pm.placeholder_to_pii k = some w →
      alookup (presidioChosenRel pm t b chosen).2.placeholder_to_pii k = some w) ∧
    (∀ p ∈ sliceVals (t.drop b) (presidioChosenRel pm t b chosen).1,
      canonB p.1 = true ∧
      alookup (presidioChosenRel pm t b chosen).2.placeholder_to_pii p.1 = some p.2) := by
  intro chosen
  induction chosen with
  | nil =>
    intro pm b hinv _ _ _
    exact ⟨hinv, fun _ _ h => h, by simp [presidioChosenRel, sliceVals]⟩
  | cons r rs ih =>
    intro pm b hinv hchain hety hval
    obtain ⟨hb, hse, hsn, hrest⟩ := resChainB_cons.mp hchain
    have he : classOkB r.entity_type = true := hety r (List.mem_cons_self _ _)
    have hv : ltFree ((t.drop r.start).take (r.stop - r.start)) = true :=
      hval r (List.mem_cons_self _ _)
    obtain ⟨hinv1, hcanon, hself, hpres, hmono⟩ := placeholder_for_spec hinv he hv
    obtain ⟨hinv2, hpres2, hsv⟩ := ih _ r.stop hinv1 hrest
      (fun x hx => hety x (List.mem_cons_of_mem _ hx))
      (fun x hx => hval x (List.mem_cons_of_mem _ hx))
    unfold presidioChosenRel
    simp only
    refine ⟨hinv2, fun k w hk => hpres2 _ _ (hpres _ _ hk), ?_⟩
    intro p hp
    rw [sliceVals] at hp
    have hd1 : (t.drop b).drop (r.start - b) = t.drop r.start := by
      rw [List.drop_drop]
      congr 1
      omega
    have hd2 : (t.drop b).drop (r.start - b + (r.stop - r.start)) = t.drop r.stop := by
      rw [List.drop_drop]
      congr 1
      omega
    simp only [hd1, hd2] at hp
    rcases List.mem_cons.mp hp with hp | hp
    · subst hp
      exact ⟨hcanon, hpres2 _ _ hself⟩
    · exact hsv p hp

/-!  ## Lemmas: the rewrite folds compute reference splices  -/

theorem repChainB_cons {b n : Nat} {r : Replacement} {rs : List Replacement} :
    repChainB b n (r :: rs) = true ↔
    b ≤ r.start ∧ r.start < r.stop ∧ r.stop ≤ n ∧ repChainB r.stop n rs = true := by
  simp [repChainB, Bool.and_eq_true, and_assoc]

theorem addrFold_spec {t : List Char} :
    ∀ (reps : List Replacement) (P : List Char) (spans0 : List (Nat × Nat)) (b : Nat),
    repChainB b t.length reps = true →
    reps.foldl addrApplyStep ((P ++ t.drop b, (P.length : Int) - (b : Int)), spans0)
      = ((P ++ splice (t.drop b) (toRel b reps),
          (P.length : Int) - (b : Int) + offDelta (toRel b reps)),
         spans0 ++ phSpans P.length (toRel b reps)) := by
  intro reps
  induction reps with
  | nil =>
    intro P spans0 b _
    simp [toRel, splice, phSpans, offDelta]
  | cons r rs ih =>
    intro P spans0 b hchain
    obtain ⟨hb, hse, hsn, hrest⟩ := repChainB_cons.mp hchain
    rw [List.foldl_cons]
    have hs : ((r.start : Int) + ((P.length : Int) - (b : Int))).toNat = P.length + (r.start - b) := by
      omega
    have he : ((r.stop : Int) + ((P.length : Int) - (b : Int))).toNat = P.length + (r.stop - b) := by
      omega
    have hstep : addrApplyStep ((P ++ t.drop b, (P.length : Int) - (b : Int)), spans0) r
        = (((P ++ (t.drop b).take (r.start - b) ++ r.placeholder) ++ t.drop r.stop,
            ((P ++ (t.drop b).take (r.start - b) ++ r.placeholder).length : Int) - (r.stop : Int)),
           spans0 ++ [(P.length + (r.start - b), P.length + (r.start - b) + r.placeholder.length)]) := by
      unfold addrApplyStep
      simp only [hs, he]
      have h1 : (P ++ t.drop b).take (P.length + (r.start - b)) = P ++ (t.drop b).take (r.start - b) :=
        List.take_append _
      have h2 : (P ++ t.drop b).drop (P.length + (r.stop - b)) = (t.drop b).drop (r.stop - b) :=
        List.drop_append _
      have h3 : (t.drop b).drop (r.stop - b) = t.drop r.stop := by
        rw [List.drop_drop]
        congr 1
        omega
      rw [h1, h2, h3]
      have hlen : ((t.drop b).take (r.start - b)).length = r.start - b := by
        rw [List.length_take, List.length_drop]
        omega
      simp only [Prod.mk.injEq]
      refine ⟨⟨?_, ?_⟩, trivial⟩
      · simp [List.append_assoc]
      · simp only [List.length_append, hlen]
        push_cast
        omega
    rw [hstep]
    have hrec := ih (P ++ (t.drop b).take (r.start - b) ++ r.placeholder)
      (spans0 ++ [(P.length + (r.start - b), P.length + (r.start - b) + r.placeholder.length)])
      r.stop hrest
    rw [hrec]
    have hplen : (P ++ (t.drop b).take (r.start - b) ++ r.placeholder).length
        = P.length + (r.start - b) + r.placeholder.length := by
      simp only [List.length_append, List.length_take, List.length_drop]
      omega
    simp only [Prod.mk.injEq]
    refine ⟨⟨?_, ?_⟩, ?_⟩
    · simp only [toRel, splice, List.append_assoc]
      congr 2
      have h4 : (t.drop b).drop (r.start - b + (r.stop - r.start)) = t.drop r.stop := by
        rw [List.drop_drop]
        congr 1
        omega
      rw [h4]
    · simp only [toRel, offDelta, hplen]
      push_cast
      omega
    · simp only [toRel, phSpans, hplen]
      rw [List.append_assoc]
      rfl

theorem presidioChosenRel_cons (pm : PlaceholderManager) (t : List Char) (b : Nat)
    (r : RecognizerResult) (rs : List RecognizerResult) :
    presidioChosenRel pm t b (r :: rs)
      = (⟨r.start - b, r.stop - r.start,
           (placeholder_for pm r.entity_type ((t.drop r.start).take (r.stop - r.start))).1⟩ ::
          (presidioChosenRel
            (placeholder_for pm r.entity_type ((t.drop r.start).take (r.stop - r.start))).2
            t r.stop rs).1,
         (presidioChosenRel
            (placeholder_for pm r.entity_type ((t.drop r.start).take (r.stop - r.start))).2
            t r.stop rs).2) := rfl

theorem presidioFold_spec {t : List Char} :
    ∀ (chosen : List RecognizerResult) (pm : PlaceholderManager) (P : List Char) (b : Nat),
    resChainB b t.length chosen = true →
    chosen.foldl presidioApplyStep ((P ++ t.drop b, (P.length : Int) - (b : Int)), pm)
      = ((P ++ splice (t.drop b) (presidioChosenRel pm t b chosen).1,
          (P.length : Int) - (b : Int) + offDelta (presidioChosenRel pm t b chosen).1),
         (presidioChosenRel pm t b chosen).2) := by
  intro chosen
  induction chosen with
  | nil =>
    intro pm P b _
    simp [presidioChosenRel, splice, offDelta]
  | cons r rs ih =>
    intro pm P b hchain
    obtain ⟨hb, hse, hsn, hrest⟩ := resChainB_cons.mp hchain
    rw [List.foldl_cons]
    have hs : ((r.start : Int) + ((P.length : Int) - (b : Int))).toNat
        = P.length + (r.start - b) := by omega
    have he : ((r.stop : Int) + ((P.length : Int) - (b : Int))).toNat
        = P.length + (r.stop - b) := by omega
    have hval : ((P ++ t.drop b).take (P.length + (r.stop - b))).drop (P.length + (r.start - b))
        = (t.drop r.start).take (r.stop - r.start) := by
      rw [List.take_append, List.drop_append]
      rw [List.drop_take]
      rw [List.drop_drop]
      congr 1
      · omega
      · congr 1
        omega
    have hvlen : ((t.drop r.start).take (r.stop - r.start)).length = r.stop - r.start := by
      rw [List.length_take, List.length_drop]
      omega
    have hstep : presidioApplyStep ((P ++ t.drop b, (P.length : Int) - (b : Int)), pm) r
        = (((P ++ (t.drop b).take (r.start - b) ++
              (placeholder_for pm r.entity_type ((t.drop r.start).take (r.stop - r.start))).1)
              ++ t.drop r.stop,
            ((P ++ (t.drop b).take (r.start - b) ++
              (placeholder_for pm r.entity_type ((t.drop r.start).take (r.stop - r.start))).1).length : Int)
              - (r.stop : Int)),
           (placeholder_for pm r.entity_type ((t.drop r.start).take (r.stop - r.start))).2) := by
      unfold presidioApplyStep
      simp only [hs, he, hval]
      have h1 : (P ++ t.drop b).take (P.length + (r.start - b))
          = P ++ (t.drop b).take (r.start - b) := List.take_append _
      have h2 : (P ++ t.drop b).drop (P.length + (r.stop - b)) = (t.drop b).drop (r.stop - b) :=
        List.drop_append _
      have h3 : (t.drop b).drop (r.stop - b) = t.drop r.stop := by
        rw [List.drop_drop]
        congr 1
        omega
      rw [h1, h2, h3]
      have hlen : ((t.drop b).take (r.start - b)).length = r.start - b := by
        rw [List.length_take, List.length_drop]
        omega
      simp only [Prod.mk.injEq]
      refine ⟨⟨?_, ?_⟩, trivial⟩
      · simp [List.append_assoc]
      · simp only [List.length_append, hlen, hvlen]
        push_cast
        omega
    rw [hstep]
    rw [ih _ _ r.stop hrest]
    have hplen : (P ++ (t.drop b).take (r.start - b) ++
        (placeholder_for pm r.entity_type ((t.drop r.start).take (r.stop - r.start))).1).length
        = P.length + (r.start - b) +
          (placeholder_for pm r.entity_type ((t.drop r.start).take (r.stop - r.start))).1.length := by
      simp only [List.length_append, List.length_take, List.length_drop]
      omega
    rw [presidioChosenRel_cons]
    simp only [Prod.mk.injEq]
    refine ⟨⟨?_, ?_⟩, ?_⟩
    · simp only [splice, List.append_assoc]
      congr 2
      have h4 : (t.drop b).drop (r.start - b + (r.stop - r.start)) = t.drop r.stop := by
        rw [List.drop_drop]
        congr 1
        omega
      rw [h4]
    · simp only [offDelta, hplen]
      push_cast
      omega
    · trivial

/-!  ## Lemmas: the greedy overlap-resolving selection  -/

theorem greedySelect_subset {text : List Char} {keys : List Str} {excl : List (Nat × Nat)} :
    ∀ (rs : List RecognizerResult) (lastEnd : Int),
    ∀ x ∈ greedySelect text keys excl rs lastEnd, x ∈ rs := by
  intro rs
  induction rs with
  | nil => intro lastEnd x hx; simp [greedySelect] at hx
  | cons r rest ih =>
    intro lastEnd x hx
    unfold greedySelect at hx
    split at hx
    · exact List.mem_cons_of_mem _ (ih _ x hx)
    · split at hx
      · exact List.mem_cons_of_mem _ (ih _ x hx)
      · split at hx
        · rcases List.mem_cons.mp hx with hx | hx
          · subst hx; exact List.mem_cons_self _ _
          · exact List.mem_cons_of_mem _ (ih _ x hx)
        · exact List.mem_cons_of_mem _ (ih _ x hx)

theorem greedySelect_start_ge {text : List Char} {keys : List Str} {excl : List (Nat × Nat)} :
    ∀ (rs : List RecognizerResult) (lastEnd : Int),
    (∀ x ∈ rs, x.start < x.stop) →
    ∀ x ∈ greedySelect text keys excl rs lastEnd, lastEnd ≤ (x.start : Int) := by
  intro rs
  induction rs with
  | nil => intro lastEnd _ x hx; simp [greedySelect] at hx
  | cons r rest ih =>
    intro lastEnd hwfs x hx
    have hwr : r.start < r.stop := hwfs r (List.mem_cons_self _ _)
    have hwfrest : ∀ x ∈ rest, x.start < x.stop :=
      fun y hy => hwfs y (List.mem_cons_of_mem _ hy)
    unfold greedySelect at hx
    split at hx
    · exact ih _ hwfrest x hx
    · split at hx
      · exact ih _ hwfrest x hx
      · split at hx
        case isTrue hle =>
          rcases List.mem_cons.mp hx with hx | hx
          · subst hx; exact hle
          · have := ih _ hwfrest x hx
            omega
        · exact ih _ hwfrest x hx

theorem greedySelect_pairwise {text : List Char} {keys : List Str} {excl : List (Nat × Nat)} :
    ∀ (rs : List RecognizerResult) (lastEnd : Int),
    (∀ x ∈ rs, x.start < x.stop) →
    (greedySelect text keys excl rs lastEnd).Pairwise (fun a c => a.stop ≤ c.start) := by
  intro rs
  induction rs with
  | nil => intro lastEnd _; simp [greedySelect]
  | cons r rest ih =>
    intro lastEnd hwfs
    have hwfrest : ∀ x ∈ rest, x.start < x.stop :=
      fun y hy => hwfs y (List.mem_cons_of_mem _ hy)
    unfold greedySelect
    split
    · exact ih _ hwfrest
    · split
      · exact ih _ hwfrest
      · split
        · refine List.Pairwise.cons ?_ (ih _ hwfrest)
          intro c hc
          have := greedySelect_start_ge rest (r.stop : Int) hwfrest c hc
          omega
        · exact ih _ hwfrest

theorem greedySelect_noKey {text : List Char} {keys : List Str} {excl : List (Nat × Nat)} :
    ∀ (rs : List RecognizerResult) (lastEnd : Int),
    ∀ x ∈ greedySelect text keys excl rs lastEnd, sliceOf text x.start x.stop ∉ keys := by
  intro rs
  induction rs with
  | nil => intro lastEnd x hx; simp [greedySelect] at hx
  | cons r rest ih =>
    intro lastEnd x hx
    unfold greedySelect at hx
    split at hx
    · exact ih _ x hx
    · split at hx
      case isFalse hk =>
        split at hx
        · rcases List.mem_cons.mp hx with hx | hx
          · subst hx; exact hk
          · exact ih _ x hx
        · exact ih _ x hx
      · exact ih _ x hx

theorem greedySelect_noOverlap {text : List Char} {keys : List Str} {excl : List (Nat × Nat)} :
    ∀ (rs : List RecognizerResult) (lastEnd : Int),
    ∀ x ∈ greedySelect text keys excl rs lastEnd, overlapsAny x.start x.stop excl = false := by
  intro rs
  induction rs with
  | nil => intro lastEnd x hx; simp [greedySelect] at hx
  | cons r rest ih =>
    intro lastEnd x hx
    unfold greedySelect at hx
    split at hx
    case isTrue => exact ih _ x hx
    case isFalse hov =>
      split at hx
      · exact ih _ x hx
      · split at hx
        · rcases List.mem_cons.mp hx with hx | hx
          · subst hx
            exact Bool.not_eq_true _ ▸ (by revert hov; cases overlapsAny x.start x.stop excl <;> simp)
          · exact ih _ x hx
        · exact ih _ x hx

theorem resChainB_of_sorted {n : Nat} :
    ∀ (l : List RecognizerResult) (b : Nat),
    (∀ r ∈ l, r.start < r.stop ∧ r.stop ≤ n) →
    l.Pairwise (fun a c => a.stop ≤ c.start) →
    (∀ x ∈ l, b ≤ x.start) →
    resChainB b n l = true := by
  intro l
  induction l with
  | nil => intro b _ _ _; rfl
  | cons r rs ih =>
    intro b hwf hpw hb
    obtain ⟨h1, h2⟩ := hwf r (List.mem_cons_self _ _)
    rw [resChainB_cons]
    refine ⟨hb r (List.mem_cons_self _ _), h1, h2, ?_⟩
    rcases hpw with _ | ⟨hr, hpw2⟩
    exact ih r.stop (fun y hy => hwf y (List.mem_cons_of_mem _ hy)) hpw2 hr

/-!  ## Lemmas: chained replacement lists from the address pass  -/

theorem repChainB_of_sorted {n : Nat} :
    ∀ (l : List Replacement) (b : Nat),
    (∀ r ∈ l, r.start < r.stop ∧ r.stop ≤ n) →
    l.Sorted replacementLE →
    l.Pairwise (fun a c => ¬(max a.start c.start < min a.stop c.stop)) →
    (∀ x ∈ l, b ≤ x.start) →
    repChainB b n l = true := by
  intro l
  induction l with
  | nil => intro b _ _ _ _; rfl
  | cons r rs ih =>
    intro b hwf hsort hdisj hb
    obtain ⟨h1, h2⟩ := hwf r (List.mem_cons_self _ _)
    rw [repChainB_cons]
    refine ⟨hb r (List.mem_cons_self _ _), h1, h2, ?_⟩
    rcases hsort with _ | ⟨hr, hsort2⟩
    rcases hdisj with _ | ⟨hd, hdisj2⟩
    refine ih r.stop (fun y hy => hwf y (List.mem_cons_of_mem _ hy)) hsort2 hdisj2 ?_
    intro x hx
    have hle : r.start ≤ x.start := hr x hx
    have hnd := hd x hx
    obtain ⟨hx1, hx2⟩ := hwf x (List.mem_cons_of_mem _ hx)
    omega

theorem sliceVals_toRel {t : List Char} :
    ∀ (reps : List Replacement) (b : Nat),
    repChainB b t.length reps = true →
    sliceVals (t.drop b) (toRel b reps)
      = reps.map (fun r => (r.placeholder, (t.drop r.start).take (r.stop - r.start))) := by
  intro reps
  induction reps with
  | nil => intro b _; rfl
  | cons r rs ih =>
    intro b hchain
    obtain ⟨h1, h2, h3, h4⟩ := repChainB_cons.mp hchain
    simp only [toRel, sliceVals, List.map_cons]
    have hd1 : (t.drop b).drop (r.start - b) = t.drop r.start := by
      rw [List.drop_drop]; congr 1; omega
    have hd2 : (t.drop b).drop (r.start - b + (r.stop - r.start)) = t.drop r.stop := by
      rw [List.drop_drop]; congr 1; omega
    rw [hd1, hd2, ih r.stop h4]

theorem toRel_extent {n : Nat} : ∀ (reps : List Replacement) (b : Nat),
    repChainB b n reps = true → extent (toRel b reps) ≤ n - b := by
  intro reps
  induction reps with
  | nil => intro b _; simp [toRel, extent]
  | cons r rs ih =>
    intro b hchain
    obtain ⟨h1, h2, h3, h4⟩ := repChainB_cons.mp hchain
    simp only [toRel, extent]
    have := ih r.stop h4
    omega

theorem toRel_len_pos {n : Nat} : ∀ (reps : List Replacement) (b : Nat),
    repChainB b n reps = true → ∀ rr ∈ toRel b reps, 1 ≤ rr.len := by
  intro reps
  induction reps with
  | nil => intro b _ rr hrr; simp [toRel] at hrr
  | cons r rs ih =>
    intro b hchain rr hrr
    obtain ⟨h1, h2, h3, h4⟩ := repChainB_cons.mp hchain
    simp only [toRel, List.mem_cons] at hrr
    rcases hrr with hrr | hrr
    · subst hrr; simp; omega
    · exact ih r.stop h4 rr hrr

theorem toRel_ph : ∀ (reps : List Replacement) (b : Nat),
    (toRel b reps).map (fun rr => rr.ph) = reps.map (fun r => r.placeholder) := by
  intro reps
  induction reps with
  | nil => intro b; rfl
  | cons r rs ih => intro b; simp [toRel, ih]

theorem toRel_replSpans {n : Nat} : ∀ (reps : List Replacement) (b : Nat),
    repChainB b n reps = true →
    replSpans b (toRel b reps) = reps.map (fun r => (r.start, r.stop)) := by
  intro reps
  induction reps with
  | nil => intro b _; rfl
  | cons r rs ih =>
    intro b hchain
    obtain ⟨h1, h2, h3, h4⟩ := repChainB_cons.mp hchain
    simp only [toRel, replSpans, List.map_cons]
    have hs : b + (r.start - b) = r.start := by omega
    rw [hs]
    have he2 : r.start + (r.stop - r.start) = r.stop := by omega
    rw [he2]
    rw [ih r.stop h4]

theorem buildAddr_coords {pm : PlaceholderManager} : ∀ (hits : List AddrMatch),
    ((buildAddrReplacements pm hits).1).map (fun r => (r.start, r.stop))
      = hits.map (fun a => (a.match_start, a.match_end)) := by
  intro hits
  induction hits generalizing pm with
  | nil => rfl
  | cons a rest ih =>
    unfold buildAddrReplacements
    simp only [List.map_cons]
    rw [ih]

/-!  ## Lemmas: the replace scan  -/

theorem pyReplaceFuel_succ (f : Nat) (c : Char) (w pat rep : Str) :
    pyReplaceFuel (f + 1) (c :: w) pat rep
      = if pat.isPrefixOf (c :: w) = true
        then rep ++ pyReplaceFuel f ((c :: w).drop pat.length) pat rep
        else c :: pyReplaceFuel f w pat rep := rfl

theorem pyReplaceN_cons (c : Char) (w pat rep : Str) :
    pyReplaceN (c :: w) pat rep
      = if pat.isPrefixOf (c :: w) = true
        then rep ++ pyReplaceFuel w.length ((c :: w).drop pat.length) pat rep
        else c :: pyReplaceFuel w.length w pat rep := rfl

theorem pyReplaceN_nil (pat rep : Str) : pyReplaceN [] pat rep = [] := rfl

theorem pyReplaceFuel_congr {pat rep : Str} (hp : pat ≠ []) :
    ∀ (n : Nat) (s : List Char), s.length ≤ n → ∀ (f : Nat), s.length ≤ f →
    pyReplaceFuel f s pat rep = pyReplaceN s pat rep := by
  intro n
  induction n with
  | zero =>
    intro s hs f hf
    have : s = [] := List.eq_nil_of_length_eq_zero (by omega)
    subst this
    cases f <;> rfl
  | succ n ih =>
    intro s hs f hf
    match s, f with
    | [], f => cases f <;> rfl
    | c :: w, f + 1 =>
      have hlenp : 1 ≤ pat.length := by
        cases pat with
        | nil => exact absurd rfl hp
        | cons a l => simp
      rw [pyReplaceFuel_succ, pyReplaceN_cons]
      by_cases hm : pat.isPrefixOf (c :: w) = true
      · rw [if_pos hm, if_pos hm]
        have hdl : ((c :: w).drop pat.length).length ≤ n := by
          rw [List.length_drop]
          simp only [List.length_cons] at hs ⊢
          omega
        rw [ih _ hdl f (by rw [List.length_drop]; simp only [List.length_cons] at hf ⊢; omega),
          ih _ hdl w.length (by rw [List.length_drop]; simp only [List.length_cons]; omega)]
      · rw [if_neg hm, if_neg hm]
        have hwl : w.length ≤ n := by
          simp only [List.length_cons] at hs
          omega
        rw [ih _ hwl f (by simp only [List.length_cons] at hf; omega), ih _ hwl w.length (le_refl _)]

theorem pyReplaceN_fuel {pat rep : Str} (hp : pat ≠ []) (s : List Char) (f : Nat)
    (hf : s.length ≤ f) : pyReplaceFuel f s pat rep = pyReplaceN s pat rep :=
  pyReplaceFuel_congr hp s.length s (le_refl _) f hf

theorem isPrefixOf_ne_head {p0 c : Char} {ptl w : Str} (hc : c ≠ p0) :
    (p0 :: ptl).isPrefixOf (c :: w) = false := by
  simp [List.isPrefixOf, Ne.symm hc]

theorem pyReplaceN_match {s pat rep : Str} (hp : pat ≠ []) (hm : pat.isPrefixOf s = true) :
    pyReplaceN s pat rep = rep ++ pyReplaceN (s.drop pat.length) pat rep := by
  match s with
  | [] =>
    rw [List.isPrefixOf_iff_prefix] at hm
    have := List.prefix_nil.mp hm
    exact absurd this hp
  | c :: w =>
    rw [pyReplaceN_cons, if_pos hm]
    congr 1
    have hlenp : 1 ≤ pat.length := by
      cases pat with
      | nil => exact absurd rfl hp
      | cons a l => simp
    exact pyReplaceN_fuel hp _ _ (by rw [List.length_drop]; simp only [List.length_cons]; omega)

theorem pyReplaceN_nomatch_cons {c : Char} {w pat rep : Str}
    (hm : pat.isPrefixOf (c :: w) = false) :
    pyReplaceN (c :: w) pat rep = c :: pyReplaceN w pat rep := by
  rw [pyReplaceN_cons, if_neg (by rw [hm]; exact Bool.false_ne_true)]
  rfl

theorem pyReplaceN_ltFree_append {pat rep : Str} {ptl : Str} (hpat : pat = '<' :: ptl) :
    ∀ (C : List Char) (rest : List Char), (∀ x ∈ C, x ≠ '<') →
    pyReplaceN (C ++ rest) pat rep = C ++ pyReplaceN rest pat rep := by
  intro C
  induction C with
  | nil => intro rest _; simp
  | cons c w ih =>
    intro rest hC
    have hc : c ≠ '<' := hC c (List.mem_cons_self _ _)
    have hm : pat.isPrefixOf (c :: (w ++ rest)) = false := by
      rw [hpat]
      exact isPrefixOf_ne_head hc
    rw [List.cons_append, pyReplaceN_nomatch_cons hm,
      ih rest (fun x hx => hC x (List.mem_cons_of_mem _ hx))]
    simp

theorem body_prefix_eq : ∀ (kb pb : List Char) (rest : List Char),
    (∀ c ∈ kb, c ≠ '>') → (∀ c ∈ pb, c ≠ '>') →
    (kb ++ ['>']).isPrefixOf (pb ++ '>' :: rest) = true → kb = pb := by
  intro kb
  induction kb with
  | nil =>
    intro pb rest _ hpb h
    cases pb with
    | nil => rfl
    | cons b pb2 =>
      have hb : b ≠ '>' := hpb b (List.mem_cons_self _ _)
      rw [List.nil_append, List.cons_append] at h
      rw [isPrefixOf_ne_head (Ne.symm (Ne.symm hb))] at h
      exact absurd h Bool.false_ne_true
  | cons a kb2 ih =>
    intro pb rest hkb hpb h
    cases pb with
    | nil =>
      have ha : a ≠ '>' := hkb a (List.mem_cons_self _ _)
      rw [List.cons_append, List.nil_append] at h
      rw [isPrefixOf_ne_head (Ne.symm ha)] at h
      exact absurd h Bool.false_ne_true
    | cons b pb2 =>
      rw [List.cons_append, List.cons_append] at h
      simp only [List.isPrefixOf, Bool.and_eq_true, beq_iff_eq] at h
      obtain ⟨hab, hrest⟩ := h
      subst hab
      rw [ih pb2 rest (fun c hc => hkb c (List.mem_cons_of_mem _ hc))
        (fun c hc => hpb c (List.mem_cons_of_mem _ hc)) hrest]

theorem canon_not_prefix {k p : Str} (hk : canonB k = true) (hp2 : canonB p = true)
    (hne : k ≠ p) (rest : List Char) : k.isPrefixOf (p ++ rest) = false := by
  obtain ⟨kb, hkeq, hkb⟩ := canonB_iff.mp hk
  obtain ⟨pb, hpeq, hpb⟩ := canonB_iff.mp hp2
  subst hkeq hpeq
  by_contra hcon
  have h : ('<' :: (kb ++ ['>'])).isPrefixOf (('<' :: (pb ++ ['>'])) ++ rest) = true := by
    revert hcon
    cases ('<' :: (kb ++ ['>'])).isPrefixOf (('<' :: (pb ++ ['>'])) ++ rest) <;> simp
  rw [List.cons_append] at h
  simp only [List.isPrefixOf, Bool.and_eq_true, beq_iff_eq] at h
  obtain ⟨-, h⟩ := h
  rw [List.append_assoc, List.singleton_append] at h
  have := body_prefix_eq kb pb rest (fun c hc => (hkb c hc).2) (fun c hc => (hpb c hc).2) h
  subst this
  exact hne rfl

theorem pyReplaceN_slot_match {k rest rep : Str} (hk : canonB k = true) :
    pyReplaceN (k ++ rest) k rep = rep ++ pyReplaceN rest k rep := by
  obtain ⟨kb, hkeq, hkb⟩ := canonB_iff.mp hk
  have hne : k ≠ [] := by rw [hkeq]; simp
  have hm : k.isPrefixOf (k ++ rest) = true := by
    rw [List.isPrefixOf_iff_prefix]
    exact List.prefix_append k rest
  rw [pyReplaceN_match hne hm, List.drop_left]

theorem pyReplaceN_slot_skip {k p rest rep : Str} (hk : canonB k = true) (hp2 : canonB p = true)
    (hne : k ≠ p) : pyReplaceN (p ++ rest) k rep = p ++ pyReplaceN rest k rep := by
  obtain ⟨pb, hpeq, hpb⟩ := canonB_iff.mp hp2
  obtain ⟨kb, hkeq, hkb⟩ := canonB_iff.mp hk
  have hm : k.isPrefixOf (p ++ rest) = false := canon_not_prefix hk hp2 hne rest
  rw [hpeq, List.cons_append]
  rw [hpeq] at hm
  rw [List.cons_append] at hm
  rw [pyReplaceN_nomatch_cons hm]
  rw [pyReplaceN_ltFree_append hkeq (pb ++ ['>']) rest ?hfree]
  case hfree =>
    intro x hx
    rcases List.mem_append.mp hx with hx | hx
    · exact (hpb x hx).1
    · simp at hx
      subst hx
      decide
  simp

theorem isPrefixOf_extend {pat X Z : List Char} (h : pat.isPrefixOf X = true) :
    pat.isPrefixOf (X ++ Z) = true := by
  rw [List.isPrefixOf_iff_prefix] at h ⊢
  exact h.trans (List.prefix_append X Z)

theorem canon_length_pos {k : Str} (hk : canonB k = true) : 1 ≤ k.length := by
  obtain ⟨kb, hkeq, -⟩ := canonB_iff.mp hk
  rw [hkeq]
  simp

theorem canon_ne_nil {k : Str} (hk : canonB k = true) : k ≠ [] := by
  obtain ⟨kb, hkeq, -⟩ := canonB_iff.mp hk
  rw [hkeq]
  simp

theorem canon_getElem_ne_lt {k : Str} (hk : canonB k = true) {i : Nat} (hi : i < k.length)
    (hpos : 1 ≤ i) : k[i] ≠ '<' := by
  obtain ⟨kb, hkeq, hkb⟩ := canonB_iff.mp hk
  subst hkeq
  obtain ⟨j, rfl⟩ : ∃ j, i = j + 1 := ⟨i - 1, by omega⟩
  have hj : j < (kb ++ ['>']).length := by
    simp only [List.length_cons] at hi
    omega
  have hcs : ('<' :: (kb ++ ['>']))[j+1] = (kb ++ ['>'])[j] := List.getElem_cons_succ ..
  rw [hcs]
  have hmem : (kb ++ ['>'])[j] ∈ kb ++ ['>'] := List.getElem_mem ..
  rcases List.mem_append.mp hmem with hx | hx
  · exact (hkb _ hx).1
  · simp only [List.mem_singleton] at hx
    rw [hx]
    decide

theorem canon_prefix_le {k X p Y : Str} (hk : canonB k = true) (hp2 : canonB p = true)
    (hX : X ≠ []) (hm : k.isPrefixOf (X ++ (p ++ Y)) = true) : k.length ≤ X.length := by
  by_contra hcon
  have hXk : X.length < k.length := by omega
  rw [List.isPrefixOf_iff_prefix] at hm
  have htake := List.prefix_iff_eq_take.mp hm
  have hplen : 1 ≤ p.length := canon_length_pos hp2
  have hXpos : 1 ≤ X.length := by
    cases X with
    | nil => exact absurd rfl hX
    | cons a l => simp
  have hbig : X.length < (X ++ (p ++ Y)).length := by
    simp only [List.length_append]
    omega
  have hval : k[X.length] = (X ++ (p ++ Y))[X.length] := by
    rw [List.getElem_of_eq htake hXk]
    exact List.getElem_take ..
  have hrhs : (X ++ (p ++ Y))[X.length] = '<' := by
    rw [List.getElem_append_right (le_refl X.length)]
    obtain ⟨pb, hpeq, -⟩ := canonB_iff.mp hp2
    subst hpeq
    simp
  exact canon_getElem_ne_lt hk hXk hXpos (hval.trans hrhs)

theorem pyReplaceN_nocross {p k v : Str} (hk : canonB k = true) (hp2 : canonB p = true)
    (hne : k ≠ p) : ∀ (n : Nat) (X : List Char), X.length ≤ n → ∀ (Y : List Char),
    pyReplaceN (X ++ (p ++ Y)) k v = pyReplaceN X k v ++ (p ++ pyReplaceN Y k v) := by
  have hknil : k ≠ [] := canon_ne_nil hk
  have hklen : 1 ≤ k.length := canon_length_pos hk
  intro n
  induction n with
  | zero =>
    intro X hX Y
    have : X = [] := List.eq_nil_of_length_eq_zero (by omega)
    subst this
    rw [List.nil_append, pyReplaceN_nil, List.nil_append]
    exact pyReplaceN_slot_skip hk hp2 hne
  | succ n ih =>
    intro X hX Y
    match X with
    | [] =>
      rw [List.nil_append, pyReplaceN_nil, List.nil_append]
      exact pyReplaceN_slot_skip hk hp2 hne
    | c :: w =>
      by_cases hm : k.isPrefixOf ((c :: w) ++ (p ++ Y)) = true
      · have hle : k.length ≤ (c :: w).length :=
          canon_prefix_le hk hp2 (List.cons_ne_nil _ _) hm
        have hmX : k.isPrefixOf (c :: w) = true := by
          rw [List.isPrefixOf_iff_prefix] at hm ⊢
          have htake := List.prefix_iff_eq_take.mp hm
          rw [List.take_append_of_le_length hle] at htake
          rw [htake]
          exact List.take_prefix _ _
        rw [pyReplaceN_match hknil hm, pyReplaceN_match hknil hmX]
        rw [List.drop_append_of_le_length hle]
        rw [ih ((c :: w).drop k.length)
          (by rw [List.length_drop]; simp only [List.length_cons] at hX ⊢; omega) Y]
        simp [List.append_assoc]
      · have hm2 : k.isPrefixOf (c :: (w ++ (p ++ Y))) = false := by
          have hca : (c :: w) ++ (p ++ Y) = c :: (w ++ (p ++ Y)) := List.cons_append ..
          rw [← hca]
          revert hm
          cases k.isPrefixOf ((c :: w) ++ (p ++ Y)) <;> simp
        have hmX : k.isPrefixOf (c :: w) = false := by
          cases hx : k.isPrefixOf (c :: w) with
          | false => rfl
          | true => exact absurd (isPrefixOf_extend (Z := p ++ Y) hx) hm
        calc pyReplaceN ((c :: w) ++ (p ++ Y)) k v
            = pyReplaceN (c :: (w ++ (p ++ Y))) k v := by rw [List.cons_append]
          _ = c :: pyReplaceN (w ++ (p ++ Y)) k v := pyReplaceN_nomatch_cons hm2
          _ = c :: (pyReplaceN w k v ++ (p ++ pyReplaceN Y k v)) := by
                rw [ih w (by simp only [List.length_cons] at hX; omega) Y]
          _ = pyReplaceN (c :: w) k v ++ (p ++ pyReplaceN Y k v) := by
                rw [pyReplaceN_nomatch_cons hmX]
                simp

/-!  ## Lemmas: partial restoration and the unmask fold  -/

theorem canon_head {k : Str} (hk : canonB k = true) : ∃ ptl, k = '<' :: ptl := by
  obtain ⟨kb, hkeq, -⟩ := canonB_iff.mp hk
  exact ⟨kb ++ ['>'], hkeq⟩

theorem partialRestore_nil_done : ∀ (rel : List RelRep) (t : List Char),
    partialRestore t [] rel = splice t rel := by
  intro rel
  induction rel with
  | nil => intro t; rfl
  | cons r rs ih =>
    intro t
    simp only [partialRestore, splice, List.not_mem_nil, if_false, ih]

theorem partialRestore_all : ∀ (rel : List RelRep) (t : List Char) (done : List Str),
    (∀ r ∈ rel, r.ph ∈ done) → partialRestore t done rel = t := by
  intro rel
  induction rel with
  | nil => intro t done _; rfl
  | cons r rs ih =>
    intro t done hall
    simp only [partialRestore, hall r (List.mem_cons_self _ _), if_true]
    rw [ih (t.drop (r.gap + r.len)) done (fun x hx => hall x (List.mem_cons_of_mem _ hx))]
    have h2 : t.drop (r.gap + r.len) = (t.drop r.gap).drop r.len := by
      rw [List.drop_drop]
    rw [h2, List.append_assoc, List.take_append_drop, List.take_append_drop]

theorem partialRestore_congr : ∀ (rel : List RelRep) (t : List Char) (d1 d2 : List Str),
    (∀ s, s ∈ d1 ↔ s ∈ d2) → partialRestore t d1 rel = partialRestore t d2 rel := by
  intro rel
  induction rel with
  | nil => intro t d1 d2 _; rfl
  | cons r rs ih =>
    intro t d1 d2 hiff
    simp only [partialRestore]
    rw [ih _ d1 d2 hiff]
    by_cases hmem : r.ph ∈ d1
    · rw [if_pos hmem, if_pos ((hiff r.ph).mp hmem)]
    · rw [if_neg hmem, if_neg (fun hc => hmem ((hiff r.ph).mpr hc))]

theorem ltFree_take {t : List Char} (ht : ∀ x ∈ t, x ≠ '<') (n : Nat) :
    ∀ x ∈ t.take n, x ≠ '<' := fun x hx => ht x (List.mem_of_mem_take hx)

theorem ltFree_drop {t : List Char} (ht : ∀ x ∈ t, x ≠ '<') (n : Nat) :
    ∀ x ∈ t.drop n, x ≠ '<' := fun x hx => ht x (List.mem_of_mem_drop hx)

theorem partialRestore_step : ∀ (rel : List RelRep) (t : List Char) (done : List Str) (k vk : Str),
    canonB k = true →
    (∀ x ∈ t, x ≠ '<') →
    (∀ r ∈ rel, canonB r.ph = true) →
    (∀ pr ∈ sliceVals t rel, pr.1 = k → pr.2 = vk) →
    pyReplaceN (partialRestore t done rel) k vk = partialRestore t (k :: done) rel := by
  intro rel
  induction rel with
  | nil =>
    intro t done k vk hk ht _ _
    obtain ⟨ptl, hptl⟩ := canon_head hk
    have hskip := @pyReplaceN_ltFree_append k vk ptl hptl t [] ht
    rw [List.append_nil] at hskip
    rw [partialRestore, partialRestore, hskip, pyReplaceN_nil, List.append_nil]
  | cons r rs ih =>
    intro t done k vk hk ht hcanon hvals
    obtain ⟨ptl, hptl⟩ := canon_head hk
    have hrc : canonB r.ph = true := hcanon r (List.mem_cons_self _ _)
    have htl : ∀ x ∈ t.drop (r.gap + r.len), x ≠ '<' := ltFree_drop ht _
    have hrec := ih (t.drop (r.gap + r.len)) done k vk hk htl
      (fun x hx => hcanon x (List.mem_cons_of_mem _ hx))
      (fun pr hpr h1 => hvals pr (by rw [sliceVals]; exact List.mem_cons_of_mem _ hpr) h1)
    simp only [partialRestore]
    rw [List.append_assoc]
    rw [pyReplaceN_ltFree_append hptl (t.take r.gap) _ (ltFree_take ht _)]
    by_cases hmem : r.ph ∈ done
    · rw [if_pos hmem, if_pos (List.mem_cons_of_mem _ hmem)]
      rw [List.append_assoc]
      congr 1
      rw [pyReplaceN_ltFree_append hptl ((t.drop r.gap).take r.len) _
        (ltFree_take (ltFree_drop ht _) _)]
      rw [hrec]
    · rw [if_neg hmem]
      by_cases hphk : r.ph = k
      · have hmem2 : r.ph ∈ k :: done := by rw [hphk]; exact List.mem_cons_self _ _
        rw [if_pos hmem2]
        rw [hphk, pyReplaceN_slot_match hk, hrec]
        have hvk : (t.drop r.gap).take r.len = vk := by
          have hv2 := hvals (r.ph, (t.drop r.gap).take r.len)
            (by rw [sliceVals]; exact List.mem_cons_self _ _) hphk
          simp only at hv2
          exact hv2
        rw [hvk]
        rw [List.append_assoc]
      · have hmem2 : r.ph ∉ k :: done := by
          intro hc
          rcases List.mem_cons.mp hc with hc | hc
          · exact hphk hc
          · exact hmem hc
        rw [if_neg hmem2]
        rw [pyReplaceN_slot_skip hk hrc (Ne.symm hphk), hrec]
        rw [List.append_assoc]

theorem pyReplace_of_ne_nil {s pat rep : Str} (hp : pat ≠ []) :
    pyReplace s pat rep = pyReplaceN s pat rep := by
  simp only [pyReplace, hp, if_false, pyReplaceN]

theorem mem_ph_sliceVals {rel : List RelRep} {r : RelRep} (t : List Char) (hr : r ∈ rel) :
    ∃ pr ∈ sliceVals t rel, pr.1 = r.ph := by
  have h1 : r.ph ∈ rel.map (fun x => x.ph) := List.mem_map.mpr ⟨r, hr, rfl⟩
  rw [← sliceVals_fst rel t] at h1
  obtain ⟨pr, hpr, hpe⟩ := List.mem_map.mp h1
  exact ⟨pr, hpr, hpe⟩

theorem unmask_fold {m : List (Str × Str)} {t : List Char} {rel : List RelRep}
    (ht : ∀ x ∈ t, x ≠ '<')
    (hcanon : ∀ r ∈ rel, canonB r.ph = true)
    (hsv : ∀ pr ∈ sliceVals t rel, alookup m pr.1 = some pr.2) :
    ∀ (ks : List Str) (done : List Str), (∀ k ∈ ks, canonB k = true) →
    ks.foldl (fun result ph => pyReplace result ph ((alookup m ph).getD []))
      (partialRestore t done rel)
      = partialRestore t (ks ++ done) rel := by
  intro ks
  induction ks with
  | nil => intro done _; simp
  | cons k ks2 ih =>
    intro done hksc
    have hkc : canonB k = true := hksc k (List.mem_cons_self _ _)
    rw [List.foldl_cons]
    rw [pyReplace_of_ne_nil (canon_ne_nil hkc)]
    rw [partialRestore_step rel t done k _ hkc ht hcanon ?hvals]
    case hvals =>
      intro pr hpr h1
      have := hsv pr hpr
      rw [h1] at this
      rw [this]
      rfl
    rw [ih (k :: done) (fun x hx => hksc x (List.mem_cons_of_mem _ hx))]
    apply partialRestore_congr
    intro s
    simp only [List.mem_append, List.mem_cons]
    tauto

theorem unmask_splice {t : List Char} {rel : List RelRep} {m : List (Str × Str)}
    (ht : ltFree t = true)
    (hsv : ∀ pr ∈ sliceVals t rel, alookup m pr.1 = some pr.2)
    (hkeys : ∀ q ∈ m, canonB q.1 = true) :
    unmaskSentence (splice t rel) m = t := by
  have ht2 : ∀ x ∈ t, x ≠ '<' := ltFree_iff.mp ht
  have hcanon : ∀ r ∈ rel, canonB r.ph = true := by
    intro r hr
    obtain ⟨pr, hpr, hpe⟩ := mem_ph_sliceVals t hr
    have hlk := hsv pr hpr
    have hmem := mem_of_alookup hlk
    have := hkeys _ hmem
    rw [← hpe]
    exact this
  unfold unmaskSentence
  by_cases hcase : splice t rel = [] ∨ m = []
  · rw [if_pos hcase]
    rcases hcase with hsp | hm
    · cases rel with
      | nil => rfl
      | cons r rs =>
        exfalso
        have hphnil : r.ph ≠ [] := canon_ne_nil (hcanon r (List.mem_cons_self _ _))
        rw [splice] at hsp
        rw [List.append_assoc] at hsp
        rcases List.append_eq_nil.mp hsp with ⟨-, h2⟩
        rcases List.append_eq_nil.mp h2 with ⟨h3, -⟩
        exact hphnil h3
    · cases rel with
      | nil => rfl
      | cons r rs =>
        exfalso
        have hlk := hsv (r.ph, (t.drop r.gap).take r.len)
          (by rw [sliceVals]; exact List.mem_cons_self _ _)
        rw [hm] at hlk
        simp [alookup] at hlk
  · rw [if_neg hcase]
    unfold replaceAllKeys
    have h0 : splice t rel = partialRestore t [] rel := (partialRestore_nil_done rel t).symm
    rw [h0]
    rw [unmask_fold ht2 hcanon hsv (List.insertionSort keyLenGE (m.map Prod.fst)) [] ?kcanon]
    case kcanon =>
      intro k hk
      rw [List.mem_insertionSort] at hk
      obtain ⟨q, hq, hqe⟩ := List.mem_map.mp hk
      rw [← hqe]
      exact hkeys q hq
    rw [List.append_nil]
    apply partialRestore_all
    intro r hr
    obtain ⟨pr, hpr, hpe⟩ := mem_ph_sliceVals t hr
    have hlk := hsv pr hpr
    have hs2 : (alookup m r.ph).isSome = true := by
      rw [← hpe, hlk]
      rfl
    rw [List.mem_insertionSort]
    exact alookup_isSome_iff.mp hs2

/-!  ## Lemmas: composing the two rewrite passes  -/

theorem phSpans_shift : ∀ (rel : List RelRep) (a d : Nat),
    phSpans (a + d) rel = (phSpans a rel).map (fun sp => (sp.1 + d, sp.2 + d)) := by
  intro rel
  induction rel with
  | nil => intro a d; rfl
  | cons r rs ih =>
    intro a d
    simp only [phSpans, List.map_cons]
    have h1 : a + d + r.gap = a + r.gap + d := by omega
    have h2 : a + d + r.gap + r.ph.length = a + r.gap + r.ph.length + d := by omega
    rw [h2, h1, ih (a + r.gap + r.ph.length) d]

theorem replSpans_shift : ∀ (rel : List RelRep) (a d : Nat),
    replSpans (a + d) rel = (replSpans a rel).map (fun sp => (sp.1 + d, sp.2 + d)) := by
  intro rel
  induction rel with
  | nil => intro a d; rfl
  | cons r rs ih =>
    intro a d
    simp only [replSpans, List.map_cons]
    have h1 : a + d + r.gap = a + r.gap + d := by omega
    have h2 : a + d + r.gap + r.len = a + r.gap + r.len + d := by omega
    rw [h2, h1, ih (a + r.gap + r.len) d]

theorem mem_replSpans_shift {rel : List RelRep} {I : Nat × Nat} (a d : Nat)
    (h : I ∈ replSpans a rel) : (I.1 + d, I.2 + d) ∈ replSpans (a + d) rel := by
  rw [replSpans_shift rel a d]
  exact List.mem_map.mpr ⟨I, h, rfl⟩

theorem mem_phSpans_shift {rel : List RelRep} {J : Nat × Nat} (a d : Nat)
    (h : J ∈ phSpans a rel) : (J.1 + d, J.2 + d) ∈ phSpans (a + d) rel := by
  rw [phSpans_shift rel a d]
  exact List.mem_map.mpr ⟨J, h, rfl⟩

theorem splice_comp :
    ∀ (N : Nat) (rel1 rel2 : List RelRep) (t : List Char),
    rel1.length + rel2.length ≤ N →
    (∀ r ∈ rel1, 1 ≤ r.ph.length) →
    (∀ r ∈ rel2, 1 ≤ r.len) →
    (∀ I ∈ replSpans 0 rel2, ∀ J ∈ phSpans 0 rel1, ¬ (max I.1 J.1 < min I.2 J.2)) →
    extent rel1 ≤ t.length →
    ∃ relc : List RelRep,
      splice (splice t rel1) rel2 = splice t relc ∧
      (∀ pr ∈ sliceVals t relc,
        pr ∈ sliceVals t rel1 ∨ pr ∈ sliceVals (splice t rel1) rel2) := by
  intro N
  induction N with
  | zero =>
    intro rel1 rel2 t hN hph hlen hav hex
    have he1 : rel1 = [] := List.eq_nil_of_length_eq_zero (by omega)
    have he2 : rel2 = [] := List.eq_nil_of_length_eq_zero (by omega)
    subst he1 he2
    exact ⟨[], rfl, by simp [sliceVals]⟩
  | succ N ih =>
    intro rel1 rel2 t hN hph hlen hav hex
    match rel2 with
    | [] => exact ⟨rel1, rfl, fun pr hpr => Or.inl hpr⟩
    | r2 :: rs2 =>
      match rel1 with
      | [] => exact ⟨r2 :: rs2, rfl, fun pr hpr => Or.inr hpr⟩
      | r1 :: rs1 =>
        have hexc : r1.gap + r1.len + extent rs1 ≤ t.length := by
          simpa [extent] using hex
        have hg1t : r1.gap ≤ t.length := by omega
        have hAlen : (t.take r1.gap).length = r1.gap := by
          rw [List.length_take]
          omega
        have hB : 1 ≤ r1.ph.length := hph r1 (List.mem_cons_self _ _)
        have hl2 : 1 ≤ r2.len := hlen r2 (List.mem_cons_self _ _)
        have hd0 := hav (0 + r2.gap, 0 + r2.gap + r2.len) (by rw [replSpans]; exact List.mem_cons_self _ _)
          (0 + r1.gap, 0 + r1.gap + r1.ph.length) (by rw [phSpans]; exact List.mem_cons_self _ _)
        simp only [Nat.zero_add] at hd0
        by_cases hcase : r2.gap + r2.len ≤ r1.gap
        · -- the first pass-2 span lies strictly before the first pass-1 placeholder
          have hsp1 : splice t (r1 :: rs1)
              = (t.take r1.gap ++ r1.ph) ++ splice (t.drop (r1.gap + r1.len)) rs1 := by
            rw [splice, List.append_assoc]
          have hg2g1 : r2.gap ≤ r1.gap := by omega
          have hF1 : (splice t (r1 :: rs1)).take r2.gap = t.take r2.gap := by
            rw [hsp1, List.take_append_of_le_length (by rw [List.length_append, hAlen]; omega),
              List.take_append_of_le_length (by rw [hAlen]; omega), List.take_take,
              Nat.min_eq_left hg2g1]
          have hF2 : (splice t (r1 :: rs1)).drop (r2.gap + r2.len)
              = splice (t.drop (r2.gap + r2.len))
                  (⟨r1.gap - (r2.gap + r2.len), r1.len, r1.ph⟩ :: rs1) := by
            rw [hsp1, List.drop_append_of_le_length (by rw [List.length_append, hAlen]; omega),
              List.drop_append_of_le_length (by rw [hAlen]; omega)]
            have e3 : (t.drop (r2.gap + r2.len)).drop (r1.gap - (r2.gap + r2.len) + r1.len)
                = t.drop (r1.gap + r1.len) := by
              rw [List.drop_drop]
              congr 1
              omega
            rw [splice]
            simp only
            rw [List.drop_take, e3]
          have hF3 : ((splice t (r1 :: rs1)).drop r2.gap).take r2.len
              = (t.drop r2.gap).take r2.len := by
            rw [hsp1, List.drop_append_of_le_length (by rw [List.length_append, hAlen]; omega),
              List.drop_append_of_le_length (by rw [hAlen]; omega)]
            have hdlen : ((t.take r1.gap).drop r2.gap).length = r1.gap - r2.gap := by
              rw [List.length_drop, hAlen]
            rw [List.take_append_of_le_length (by rw [List.length_append, hdlen]; omega),
              List.take_append_of_le_length (by rw [hdlen]; omega)]
            rw [List.drop_take, List.take_take, Nat.min_eq_left (by omega)]
          have hF4 : sliceVals (t.drop (r2.gap + r2.len))
                (⟨r1.gap - (r2.gap + r2.len), r1.len, r1.ph⟩ :: rs1)
              = sliceVals t (r1 :: rs1) := by
            simp only [sliceVals]
            rw [List.drop_drop, List.drop_drop]
            have e1 : r2.gap + r2.len + (r1.gap - (r2.gap + r2.len)) = r1.gap := by omega
            have e2 : r2.gap + r2.len + (r1.gap - (r2.gap + r2.len) + r1.len)
                = r1.gap + r1.len := by omega
            rw [e1, e2]
          have hav2 : ∀ I ∈ replSpans 0 rs2,
              ∀ J ∈ phSpans 0 (⟨r1.gap - (r2.gap + r2.len), r1.len, r1.ph⟩ :: rs1),
              ¬ (max I.1 J.1 < min I.2 J.2) := by
            intro I hI J hJ
            have hI2 : (I.1 + (r2.gap + r2.len), I.2 + (r2.gap + r2.len))
                ∈ replSpans 0 (r2 :: rs2) := by
              rw [replSpans]
              refine List.mem_cons_of_mem _ ?_
              have := mem_replSpans_shift 0 (r2.gap + r2.len) hI
              rw [Nat.zero_add] at this
              have hacc : (0 : Nat) + r2.gap + r2.len = r2.gap + r2.len := by omega
              rw [hacc]
              exact this
            rw [phSpans] at hJ
            rcases List.mem_cons.mp hJ with hJ | hJ
            · have hJv : J = (0 + (r1.gap - (r2.gap + r2.len)),
                  0 + (r1.gap - (r2.gap + r2.len)) + r1.ph.length) := hJ
              have hJ2 : (r1.gap, r1.gap + r1.ph.length) ∈ phSpans 0 (r1 :: rs1) := by
                rw [phSpans]
                have : ((0 : Nat) + r1.gap, (0 : Nat) + r1.gap + r1.ph.length)
                    = (r1.gap, r1.gap + r1.ph.length) := by
                  simp
                rw [← this]
                exact List.mem_cons_self _ _
              have := hav _ hI2 _ hJ2
              simp only at this ⊢
              rw [hJv]
              simp only
              omega
            · have hsh := mem_phSpans_shift (0 + (r1.gap - (r2.gap + r2.len)) + r1.ph.length)
                (r2.gap + r2.len) hJ
              have hacc : (0 : Nat) + (r1.gap - (r2.gap + r2.len)) + r1.ph.length
                  + (r2.gap + r2.len) = 0 + r1.gap + r1.ph.length := by omega
              rw [hacc] at hsh
              have hJ2 : (J.1 + (r2.gap + r2.len), J.2 + (r2.gap + r2.len))
                  ∈ phSpans 0 (r1 :: rs1) := by
                rw [phSpans]
                exact List.mem_cons_of_mem _ hsh
              have := hav _ hI2 _ hJ2
              simp only at this ⊢
              omega
          have hexc2 : extent (⟨r1.gap - (r2.gap + r2.len), r1.len, r1.ph⟩ :: rs1)
              ≤ (t.drop (r2.gap + r2.len)).length := by
            simp only [extent, List.length_drop]
            omega
          obtain ⟨relc2, hceq, hcmem⟩ := ih (⟨r1.gap - (r2.gap + r2.len), r1.len, r1.ph⟩ :: rs1)
            rs2 (t.drop (r2.gap + r2.len)) (by simp only [List.length_cons] at hN ⊢; omega)
            (by
              intro r hr
              rcases List.mem_cons.mp hr with hr | hr
              · rw [hr]
                exact hB
              · exact hph r (List.mem_cons_of_mem _ hr))
            (fun r hr => hlen r (List.mem_cons_of_mem _ hr)) hav2 hexc2
          refine ⟨⟨r2.gap, r2.len, r2.ph⟩ :: relc2, ?_, ?_⟩
          · conv_rhs => rw [splice]
            rw [hF1.symm]
            rw [← hceq, ← hF2]
            rw [splice]
          · intro pr hpr
            rw [sliceVals] at hpr
            rcases List.mem_cons.mp hpr with hpr | hpr
            · right
              rw [sliceVals]
              simp only at hpr
              rw [hpr]
              rw [← hF3]
              exact List.mem_cons_self _ _
            · rcases hcmem pr hpr with hm | hm
              · left
                rw [← hF4]
                exact hm
              · right
                rw [sliceVals]
                refine List.mem_cons_of_mem _ ?_
                rw [hF2]
                exact hm
        · -- the first pass-2 span lies beyond the first pass-1 placeholder
          have hcase2 : r1.gap + r1.ph.length ≤ r2.gap := by omega
          have hsp1 : splice t (r1 :: rs1)
              = (t.take r1.gap ++ r1.ph) ++ splice (t.drop (r1.gap + r1.len)) rs1 := by
            rw [splice, List.append_assoc]
          have hABlen : (t.take r1.gap ++ r1.ph).length = r1.gap + r1.ph.length := by
            rw [List.length_append, hAlen]
          have hG1 : (splice t (r1 :: rs1)).take r2.gap
              = (t.take r1.gap ++ r1.ph) ++
                (splice (t.drop (r1.gap + r1.len)) rs1).take (r2.gap - (r1.gap + r1.ph.length)) := by
            rw [hsp1]
            have hr2 : r2.gap = (t.take r1.gap ++ r1.ph).length
                + (r2.gap - (r1.gap + r1.ph.length)) := by
              rw [hABlen]
              omega
            conv_lhs => rw [hr2]
            rw [List.take_append]
          have hG2 : ∀ (x : Nat), (splice t (r1 :: rs1)).drop (r2.gap - (r1.gap + r1.ph.length) + x + (r1.gap + r1.ph.length))
              = (splice (t.drop (r1.gap + r1.len)) rs1).drop (r2.gap - (r1.gap + r1.ph.length) + x) := by
            intro x
            rw [hsp1]
            have hr2 : r2.gap - (r1.gap + r1.ph.length) + x + (r1.gap + r1.ph.length)
                = (t.take r1.gap ++ r1.ph).length + (r2.gap - (r1.gap + r1.ph.length) + x) := by
              rw [hABlen]
              omega
            rw [hr2, List.drop_append]
          have hav2 : ∀ I ∈ replSpans 0 (⟨r2.gap - (r1.gap + r1.ph.length), r2.len, r2.ph⟩ :: rs2),
              ∀ J ∈ phSpans 0 rs1, ¬ (max I.1 J.1 < min I.2 J.2) := by
            intro I hI J hJ
            have hJ2 : (J.1 + (r1.gap + r1.ph.length), J.2 + (r1.gap + r1.ph.length))
                ∈ phSpans 0 (r1 :: rs1) := by
              rw [phSpans]
              refine List.mem_cons_of_mem _ ?_
              have := mem_phSpans_shift 0 (r1.gap + r1.ph.length) hJ
              rw [Nat.zero_add] at this
              have hacc : (0 : Nat) + r1.gap + r1.ph.length = r1.gap + r1.ph.length := by omega
              rw [hacc]
              exact this
            rw [replSpans] at hI
            rcases List.mem_cons.mp hI with hI | hI
            · have hIv : I = (0 + (r2.gap - (r1.gap + r1.ph.length)),
                  0 + (r2.gap - (r1.gap + r1.ph.length)) + r2.len) := hI
              have hI2 : (r2.gap, r2.gap + r2.len) ∈ replSpans 0 (r2 :: rs2) := by
                rw [replSpans]
                have : ((0 : Nat) + r2.gap, (0 : Nat) + r2.gap + r2.len)
                    = (r2.gap, r2.gap + r2.len) := by simp
                rw [← this]
                exact List.mem_cons_self _ _
              have := hav _ hI2 _ hJ2
              simp only at this ⊢
              rw [hIv]
              simp only
              omega
            · have hsh := mem_replSpans_shift (0 + (r2.gap - (r1.gap + r1.ph.length)) + r2.len)
                (r1.gap + r1.ph.length) hI
              have hacc : (0 : Nat) + (r2.gap - (r1.gap + r1.ph.length)) + r2.len
                  + (r1.gap + r1.ph.length) = 0 + r2.gap + r2.len := by omega
              rw [hacc] at hsh
              have hI2 : (I.1 + (r1.gap + r1.ph.length), I.2 + (r1.gap + r1.ph.length))
                  ∈ replSpans 0 (r2 :: rs2) := by
                rw [replSpans]
                exact List.mem_cons_of_mem _ hsh
              have := hav _ hI2 _ hJ2
              simp only at this ⊢
              omega
          have hexc2 : extent rs1 ≤ (t.drop (r1.gap + r1.len)).length := by
            rw [List.length_drop]
            omega
          obtain ⟨relc2, hceq, hcmem⟩ := ih rs1
            (⟨r2.gap - (r1.gap + r1.ph.length), r2.len, r2.ph⟩ :: rs2)
            (t.drop (r1.gap + r1.len)) (by simp only [List.length_cons] at hN ⊢; omega)
            (fun r hr => hph r (List.mem_cons_of_mem _ hr))
            (by
              intro r hr
              rcases List.mem_cons.mp hr with hr | hr
              · rw [hr]
                exact hl2
              · exact hlen r (List.mem_cons_of_mem _ hr)) hav2 hexc2
          have hCd : (splice t (r1 :: rs1)).drop r2.gap
              = (splice (t.drop (r1.gap + r1.len)) rs1).drop
                  (r2.gap - (r1.gap + r1.ph.length)) := by
            have := hG2 0
            have hz : r2.gap - (r1.gap + r1.ph.length) + 0 + (r1.gap + r1.ph.length)
                = r2.gap := by omega
            rw [hz] at this
            have hz2 : r2.gap - (r1.gap + r1.ph.length) + 0
                = r2.gap - (r1.gap + r1.ph.length) := by omega
            rw [hz2] at this
            exact this
          have hCd2 : (splice t (r1 :: rs1)).drop (r2.gap + r2.len)
              = (splice (t.drop (r1.gap + r1.len)) rs1).drop
                  (r2.gap - (r1.gap + r1.ph.length) + r2.len) := by
            have := hG2 r2.len
            have hz : r2.gap - (r1.gap + r1.ph.length) + r2.len + (r1.gap + r1.ph.length)
                = r2.gap + r2.len := by omega
            rw [hz] at this
            exact this
          refine ⟨⟨r1.gap, r1.len, r1.ph⟩ :: relc2, ?_, ?_⟩
          · conv_rhs => rw [splice]
            conv_lhs => rw [splice]
            rw [hG1, hCd2]
            rw [← hceq]
            rw [splice]
            simp [List.append_assoc]
          · intro pr hpr
            rw [sliceVals] at hpr
            rcases List.mem_cons.mp hpr with hpr | hpr
            · left
              rw [sliceVals]
              simp only at hpr
              rw [hpr]
              exact List.mem_cons_self _ _
            · rcases hcmem pr hpr with hm | hm
              · left
                rw [sliceVals]
                exact List.mem_cons_of_mem _ hm
              · right
                rw [sliceVals] at hm ⊢
                simp only at hm
                rcases List.mem_cons.mp hm with hm | hm
                · rw [hm]
                  rw [← hCd]
                  exact List.mem_cons_self _ _
                · refine List.mem_cons_of_mem _ ?_
                  rw [hCd2]
                  exact hm

theorem slice_ltFree_avoid :
    ∀ (rel1 : List RelRep) (t : List Char) (s e : Nat),
    (∀ x ∈ t, x ≠ '<') →
    (∀ r ∈ rel1, 1 ≤ r.ph.length) →
    extent rel1 ≤ t.length →
    (∀ J ∈ phSpans 0 rel1, ¬ (max s J.1 < min e J.2)) →
    ∀ x ∈ ((splice t rel1).drop s).take (e - s), x ≠ '<' := by
  intro rel1
  induction rel1 with
  | nil =>
    intro t s e ht _ _ _ x hx
    exact ht x (List.mem_of_mem_drop (List.mem_of_mem_take hx))
  | cons r1 rs1 ih =>
    intro t s e ht hph hex hav x hx
    by_cases hse : e ≤ s
    · rw [Nat.sub_eq_zero_of_le hse] at hx
      simp at hx
    · have hexc : r1.gap + r1.len + extent rs1 ≤ t.length := by simpa [extent] using hex
      have hAlen : (t.take r1.gap).length = r1.gap := by
        rw [List.length_take]
        omega
      have hB : 1 ≤ r1.ph.length := hph r1 (List.mem_cons_self _ _)
      have hd0 := hav (0 + r1.gap, 0 + r1.gap + r1.ph.length)
        (by rw [phSpans]; exact List.mem_cons_self _ _)
      simp only [Nat.zero_add] at hd0
      have hsp1 : splice t (r1 :: rs1)
          = (t.take r1.gap ++ r1.ph) ++ splice (t.drop (r1.gap + r1.len)) rs1 := by
        rw [splice, List.append_assoc]
      by_cases hcase : e ≤ r1.gap
      · have hs1 : s ≤ r1.gap := by omega
        rw [hsp1, List.drop_append_of_le_length (by rw [List.length_append, hAlen]; omega),
          List.drop_append_of_le_length (by rw [hAlen]; omega)] at hx
        have hdlen : ((t.take r1.gap).drop s).length = r1.gap - s := by
          rw [List.length_drop, hAlen]
        rw [List.take_append_of_le_length (by rw [List.length_append, hdlen]; omega),
          List.take_append_of_le_length (by rw [hdlen]; omega)] at hx
        exact ht x (List.mem_of_mem_take (List.mem_of_mem_drop (List.mem_of_mem_take hx)))
      · have hs2 : r1.gap + r1.ph.length ≤ s := by omega
        have hABlen : (t.take r1.gap ++ r1.ph).length = r1.gap + r1.ph.length := by
          rw [List.length_append, hAlen]
        have hsplit : s = (t.take r1.gap ++ r1.ph).length + (s - (r1.gap + r1.ph.length)) := by
          rw [hABlen]
          omega
        rw [hsp1] at hx
        rw [hsplit, List.drop_append] at hx
        have hidx : e - ((t.take r1.gap ++ r1.ph).length + (s - (r1.gap + r1.ph.length)))
            = (e - (r1.gap + r1.ph.length)) - (s - (r1.gap + r1.ph.length)) := by
          rw [hABlen]
          omega
        rw [hidx] at hx
        refine ih (t.drop (r1.gap + r1.len)) (s - (r1.gap + r1.ph.length))
          (e - (r1.gap + r1.ph.length)) (ltFree_drop ht _)
          (fun r hr => hph r (List.mem_cons_of_mem _ hr))
          (by rw [List.length_drop]; omega) ?_ x hx
        intro J hJ
        have hJ2 : (J.1 + (r1.gap + r1.ph.length), J.2 + (r1.gap + r1.ph.length))
            ∈ phSpans 0 (r1 :: rs1) := by
          rw [phSpans]
          refine List.mem_cons_of_mem _ ?_
          have hsh := mem_phSpans_shift 0 (r1.gap + r1.ph.length) hJ
          rw [Nat.zero_add] at hsh
          have hacc : (0 : Nat) + r1.gap + r1.ph.length = r1.gap + r1.ph.length := by omega
          rw [hacc]
          exact hsh
        have := hav _ hJ2
        simp only at this ⊢
        omega

theorem sliceOf_eq (t : List Char) (s e : Nat) :
    sliceOf t s e = (t.drop s).take (e - s) := by
  unfold sliceOf
  rw [List.drop_take]

theorem addressMask_spec {pm : PlaceholderManager} {t : List Char} {hits : List AddrMatch}
    (hinv : PMInv pm)
    (hwf : ∀ a ∈ hits, addrWfB t.length a = true)
    (hdisj : hits.Pairwise (fun a c => ¬ (max a.match_start c.match_start < min a.match_end c.match_end)))
    (hval : ∀ a ∈ hits, a.full_address = sliceOf t a.match_start a.match_end)
    (hltf : ∀ a ∈ hits, ltFree a.full_address = true) :
    ∃ rel1 : List RelRep,
      addressMask pm t hits
        = ((splice t rel1, phSpans 0 rel1), (buildAddrReplacements pm hits).2) ∧
      extent rel1 ≤ t.length ∧
      (∀ r ∈ rel1, 1 ≤ r.ph.length) ∧
      PMInv (buildAddrReplacements pm hits).2 ∧
      (∀ pr ∈ sliceVals t rel1, canonB pr.1 = true ∧
        alookup (buildAddrReplacements pm hits).2.placeholder_to_pii pr.1 = some pr.2) := by
  obtain ⟨hinv2, hpres2, hmem⟩ := buildAddr_spec hinv hltf
  have hcoords := @buildAddr_coords pm hits
  set reps := (buildAddrReplacements pm hits).1 with hreps
  have hrwf : ∀ r ∈ reps, r.start < r.stop ∧ r.stop ≤ t.length := by
    intro r hr
    obtain ⟨-, a, ha, h1, h2, -⟩ := hmem r hr
    have := hwf a ha
    simp only [addrWfB, Bool.and_eq_true, decide_eq_true_eq] at this
    omega
  have hrdisj : reps.Pairwise (fun x y => ¬ (max x.start y.start < min x.stop y.stop)) := by
    have h1 : (hits.map (fun a => (a.match_start, a.match_end))).Pairwise
        (fun I J => ¬ (max I.1 J.1 < min I.2 J.2)) := by
      rw [List.pairwise_map]
      exact hdisj
    rw [← hcoords] at h1
    rw [List.pairwise_map] at h1
    exact h1
  set sortedReps : List Replacement := List.insertionSort replacementLE reps with hsorted
  have hperm : List.Perm sortedReps reps := List.perm_insertionSort replacementLE reps
  have hswf : ∀ r ∈ sortedReps, r.start < r.stop ∧ r.stop ≤ t.length := by
    intro r hr
    exact hrwf r (hperm.mem_iff.mp hr)
  have hsdisj : sortedReps.Pairwise (fun x y => ¬ (max x.start y.start < min x.stop y.stop)) := by
    refine (List.Perm.pairwise_iff ?_ hperm).mpr hrdisj
    intro a b hab
    omega
  have hssort : sortedReps.Sorted replacementLE := List.sorted_insertionSort replacementLE reps
  have hchain : repChainB 0 t.length sortedReps = true :=
    repChainB_of_sorted sortedReps 0 hswf hssort hsdisj (fun x _ => Nat.zero_le _)
  refine ⟨toRel 0 sortedReps, ?_, ?_, ?_, hinv2, ?_⟩
  · simp only [addressMask]
    have hfold := addrFold_spec (t := t) sortedReps [] [] 0 hchain
    simp only [List.nil_append, List.drop_zero, List.length_nil, Nat.cast_zero] at hfold
    have hz : ((0 : Int) - (0 : Int)) = (0 : Int) := by omega
    rw [hz] at hfold
    rw [← hreps, ← hsorted, hfold]
  · have := toRel_extent (n := t.length) sortedReps 0 hchain
    omega
  · intro r hr
    have hphm : r.ph ∈ (toRel 0 sortedReps).map (fun rr => rr.ph) := List.mem_map.mpr ⟨r, hr, rfl⟩
    rw [toRel_ph] at hphm
    obtain ⟨rp, hrp, hrpe⟩ := List.mem_map.mp hphm
    obtain ⟨hc, -⟩ := hmem rp (hperm.mem_iff.mp hrp)
    rw [← hrpe]
    exact canon_length_pos hc
  · intro pr hpr
    have hsv := sliceVals_toRel (t := t) sortedReps 0 hchain
    rw [List.drop_zero] at hsv
    rw [hsv] at hpr
    obtain ⟨rp, hrp, hrpe⟩ := List.mem_map.mp hpr
    obtain ⟨hc, a, ha, h1, h2, h3⟩ := hmem rp (hperm.mem_iff.mp hrp)
    rw [← hrpe]
    refine ⟨hc, ?_⟩
    simp only
    rw [h3]
    have := hval a ha
    rw [sliceOf_eq] at this
    rw [← h1, ← h2] at this
    rw [← this]

theorem presidioMask_spec {pm : PlaceholderManager} {t : List Char} {entities : List Str}
    {excl : List (Nat × Nat)}
    (analyze : List Char → List Str → List RecognizerResult)
    (hinv : PMInv pm)
    (hwf : ∀ r ∈ analyze t entities, resWfB t.length r = true)
    (hslice : ∀ r ∈ analyze t entities, overlapsAny r.start r.stop excl = false →
      ltFree ((t.drop r.start).take (r.stop - r.start)) = true) :
    ∃ (rel2 : List RelRep) (pm2 : PlaceholderManager),
      presidioMask analyze pm t entities excl = (splice t rel2, pm2) ∧
      PMInv pm2 ∧
      (∀ k w, alookup pm.placeholder_to_pii k = some w →
        alookup pm2.placeholder_to_pii k = some w) ∧
      (∀ r ∈ rel2, 1 ≤ r.len) ∧
      extent rel2 ≤ t.length ∧
      (∀ I ∈ replSpans 0 rel2, overlapsAny I.1 I.2 excl = false) ∧
      (∀ pr ∈ sliceVals t rel2, canonB pr.1 = true ∧
        alookup pm2.placeholder_to_pii pr.1 = some pr.2) := by
  by_cases hE : entities = []
  · refine ⟨[], pm, ?_, hinv, fun _ _ h => h, ?_, ?_, ?_, ?_⟩
    · simp [presidioMask, hE, splice]
    · intro r hr; simp at hr
    · simp [extent]
    · intro I hI; simp [replSpans] at hI
    · intro pr hpr; simp [sliceVals] at hpr
  · set sorted : List RecognizerResult :=
      List.insertionSort resultLE (analyze t entities) with hsortedEq
    have hperm : List.Perm sorted (analyze t entities) :=
      List.perm_insertionSort resultLE (analyze t entities)
    set chosen : List RecognizerResult :=
      greedySelect t (pm.mappings.map Prod.fst) excl sorted (-1) with hchosenEq
    have hsubs : ∀ x ∈ chosen, x ∈ analyze t entities := by
      intro x hx
      exact hperm.mem_iff.mp (greedySelect_subset sorted (-1) x hx)
    have hwfc : ∀ x ∈ chosen, resWfB t.length x = true :=
      fun x hx => hwf x (hsubs x hx)
    have hwfc2 : ∀ x ∈ chosen, x.start < x.stop ∧ x.stop ≤ t.length := by
      intro x hx
      have := hwfc x hx
      simp only [resWfB, Bool.and_eq_true, decide_eq_true_eq] at this
      exact ⟨this.1.1, this.1.2⟩
    have hety : ∀ x ∈ chosen, classOkB x.entity_type = true := by
      intro x hx
      have := hwfc x hx
      simp only [resWfB, Bool.and_eq_true, decide_eq_true_eq] at this
      exact this.2
    have hwfs : ∀ x ∈ sorted, x.start < x.stop := by
      intro x hx
      have := hwf x (hperm.mem_iff.mp hx)
      simp only [resWfB, Bool.and_eq_true, decide_eq_true_eq] at this
      exact this.1.1
    have hpw : chosen.Pairwise (fun a c => a.stop ≤ c.start) :=
      greedySelect_pairwise sorted (-1) hwfs
    have hchain : resChainB 0 t.length chosen = true :=
      resChainB_of_sorted chosen 0 hwfc2 hpw (fun x _ => Nat.zero_le _)
    have hnov : ∀ x ∈ chosen, overlapsAny x.start x.stop excl = false :=
      greedySelect_noOverlap sorted (-1)
    have hval : ∀ x ∈ chosen, ltFree ((t.drop x.start).take (x.stop - x.start)) = true :=
      fun x hx => hslice x (hsubs x hx) (hnov x hx)
    obtain ⟨hinv2, hpres2, hsv⟩ :=
      presidioChosenRel_spec chosen pm 0 hinv hchain hety hval
    have hfold := presidioFold_spec chosen pm [] 0 hchain
    simp only [List.nil_append, List.drop_zero, List.length_nil, Nat.cast_zero] at hfold
    have hz : ((0 : Int) - (0 : Int)) = (0 : Int) := by omega
    rw [hz] at hfold
    refine ⟨(presidioChosenRel pm t 0 chosen).1, (presidioChosenRel pm t 0 chosen).2,
      ?_, hinv2, hpres2, ?_, ?_, ?_, ?_⟩
    · simp only [presidioMask, if_neg hE]
      rw [← hsortedEq, ← hchosenEq, hfold]
    · exact presidioRel_len_pos chosen pm 0 hchain
    · have := presidioRel_extent chosen pm 0 hchain
      omega
    · intro I hI
      have hrs := presidioRel_replSpans chosen pm 0 hchain
      rw [hrs] at hI
      obtain ⟨r, hr, hre⟩ := List.mem_map.mp hI
      rw [← hre]
      exact hnov r hr
    · intro pr hpr
      rw [← List.drop_zero t] at hpr
      exact hsv pr hpr

theorem masked_restores {t t1 t2 : List Char} {rel1 rel2 : List RelRep}
    {pm2 : PlaceholderManager}
    (hlt : ltFree t = true)
    (ht1 : t1 = splice t rel1) (ht2 : t2 = splice t1 rel2)
    (hext1 : extent rel1 ≤ t.length)
    (hph1 : ∀ r ∈ rel1, 1 ≤ r.ph.length)
    (hlen2 : ∀ r ∈ rel2, 1 ≤ r.len)
    (hav : ∀ I ∈ replSpans 0 rel2, ∀ J ∈ phSpans 0 rel1, ¬ (max I.1 J.1 < min I.2 J.2))
    (hinv2 : PMInv pm2)
    (hsv1 : ∀ pr ∈ sliceVals t rel1, alookup pm2.placeholder_to_pii pr.1 = some pr.2)
    (hsv2 : ∀ pr ∈ sliceVals t1 rel2, alookup pm2.placeholder_to_pii pr.1 = some pr.2) :
    unmaskSentence t2 pm2.mappings = t := by
  obtain ⟨relc, hceq, hcsv⟩ :=
    splice_comp (rel1.length + rel2.length) rel1 rel2 t le_rfl hph1 hlen2 hav hext1
  subst ht1
  subst ht2
  rw [hceq]
  apply unmask_splice hlt
  · intro pr hpr
    rcases hcsv pr hpr with h | h
    · exact hsv1 pr h
    · exact hsv2 pr h
  · intro q hq
    exact (hinv2.2.1 q hq).1

/-- C1 (amended).  Round-trip law: for an input text free of the placeholder
bracket `<`, a seed mapping whose keys are well-formed placeholders with
bracket-free values and no duplicates, and detector oracles returning
in-bounds, pairwise-disjoint address hits consistent with the text and
in-bounds analyzer results with well-formed entity type names, a successful
`mask_sentence` run producing `(masked, mapping)` restores the original
text exactly: `_unmask_sentence masked mapping = sentence`. -/
theorem mask_unmask_roundtrip
    {sentence masked : List Char} {mapping : List (Str × Str)}
    {analyzerPresent : Bool}
    {analyze : List Char → List Str → List RecognizerResult}
    {addrDetect : List Char → List AddrMatch}
    {presidio_entities : Option (List Str)} {seed : Option (List (Str × Str))}
    (hlt : ltFree sentence = true)
    (hseednd : ((seed.getD []).map Prod.fst).Nodup)
    (hseedwf : ∀ p ∈ seed.getD [], (parsePlaceholder p.1).isSome = true ∧ ltFree p.2 = true)
    (haddr : ∀ a ∈ addrDetect sentence, addrWfB sentence.length a = true)
    (haddrdisj : (addrDetect sentence).Pairwise
      (fun a c => ¬ (max a.match_start c.match_start < min a.match_end c.match_end)))
    (haddrval : ∀ a ∈ addrDetect sentence,
      a.full_address = sliceOf sentence a.match_start a.match_end)
    (hana : ∀ (u : List Char) (es : List Str), ∀ r ∈ analyze u es, resWfB u.length r = true)
    (hrun : mask_sentence sentence analyzerPresent analyze addrDetect presidio_entities seed
      = Except.ok (masked, mapping)) :
    unmaskSentence masked mapping = sentence := by
  simp only [mask_sentence] at hrun
  split at hrun
  next hv => exact Except.noConfusion hrun
  next hv =>
  split at hrun
  next hs =>
    simp only [Except.ok.injEq, Prod.mk.injEq] at hrun
    obtain ⟨h1, h2⟩ := hrun
    subst h1
    subst h2
    subst hs
    rfl
  next hs =>
  have hinv0 : PMInv (PlaceholderManager.init (seed.getD [])) := init_PMInv hseednd hseedwf
  have haddrStep : ∃ (rel1 : List RelRep) (pm1 : PlaceholderManager),
      (if ['L', 'O', 'C', 'A', 'T', 'I', 'O', 'N'] ∈
          (if presidio_entities.getD [] ≠ [] then presidio_entities.getD []
          else PRESIDIO_ENTITIES)
        then addressMask (PlaceholderManager.init (seed.getD [])) sentence (addrDetect sentence)
        else ((sentence, []), PlaceholderManager.init (seed.getD [])))
      = ((splice sentence rel1, phSpans 0 rel1), pm1) ∧
      extent rel1 ≤ sentence.length ∧
      (∀ r ∈ rel1, 1 ≤ r.ph.length) ∧
      PMInv pm1 ∧
      (∀ pr ∈ sliceVals sentence rel1, canonB pr.1 = true ∧
        alookup pm1.placeholder_to_pii pr.1 = some pr.2) := by
    by_cases hL : ['L', 'O', 'C', 'A', 'T', 'I', 'O', 'N'] ∈
        (if presidio_entities.getD [] ≠ [] then presidio_entities.getD []
        else PRESIDIO_ENTITIES)
    · rw [if_pos hL]
      have hltf : ∀ a ∈ addrDetect sentence, ltFree a.full_address = true := by
        intro a ha
        rw [haddrval a ha, sliceOf_eq]
        refine ltFree_iff.mpr (fun x hx => ?_)
        exact ltFree_drop (ltFree_iff.mp hlt) a.match_start x (List.mem_of_mem_take hx)
      obtain ⟨rel1, heq, hext, hph, hinv1, hsv⟩ :=
        addressMask_spec hinv0 haddr haddrdisj haddrval hltf
      exact ⟨rel1, _, heq, hext, hph, hinv1, hsv⟩
    · rw [if_neg hL]
      refine ⟨[], PlaceholderManager.init (seed.getD []), ?_, ?_, ?_, hinv0, ?_⟩
      · rfl
      · simp [extent]
      · intro r hr; simp at hr
      · intro pr hpr; simp [sliceVals] at hpr
  obtain ⟨rel1, pm1, heq1, hext1, hph1, hinv1, hsv1⟩ := haddrStep
  rw [heq1] at hrun
  dsimp only at hrun
  have hpresStep : ∀ E2 : List Str, ∃ (rel2 : List RelRep) (pm2 : PlaceholderManager),
      (if analyzerPresent ∧ E2 ≠ [] then
          presidioMask analyze pm1 (splice sentence rel1) E2 (phSpans 0 rel1)
        else (splice sentence rel1, pm1))
      = (splice (splice sentence rel1) rel2, pm2) ∧
      PMInv pm2 ∧
      (∀ k w, alookup pm1.placeholder_to_pii k = some w →
        alookup pm2.placeholder_to_pii k = some w) ∧
      (∀ r ∈ rel2, 1 ≤ r.len) ∧
      (∀ I ∈ replSpans 0 rel2, ∀ J ∈ phSpans 0 rel1, ¬ (max I.1 J.1 < min I.2 J.2)) ∧
      (∀ pr ∈ sliceVals (splice sentence rel1) rel2, canonB pr.1 = true ∧
        alookup pm2.placeholder_to_pii pr.1 = some pr.2) := by
    intro E2
    by_cases hP : (analyzerPresent = true) ∧ E2 ≠ []
    · rw [if_pos hP]
      have hslice : ∀ r ∈ analyze (splice sentence rel1) E2,
          overlapsAny r.start r.stop (phSpans 0 rel1) = false →
          ltFree (((splice sentence rel1).drop r.start).take (r.stop - r.start)) = true := by
        intro r hr hov
        simp only [overlapsAny, List.any_eq_false, decide_eq_true_eq] at hov
        exact ltFree_iff.mpr (slice_ltFree_avoid rel1 sentence r.start r.stop
          (ltFree_iff.mp hlt) hph1 hext1 hov)
      obtain ⟨rel2, pm2, heq, hinv2, hpres, hlens, hext, hovl, hsv⟩ :=
        presidioMask_spec analyze hinv1 (hana (splice sentence rel1) E2) hslice
      refine ⟨rel2, pm2, heq, hinv2, hpres, hlens, ?_, hsv⟩
      intro I hI J hJ
      have h := hovl I hI
      simp only [overlapsAny, List.any_eq_false, decide_eq_true_eq] at h
      exact h J hJ
    · rw [if_neg hP]
      refine ⟨[], pm1, rfl, hinv1, fun _ _ h => h, ?_, ?_, ?_⟩
      · intro r hr; simp at hr
      · intro I hI; simp [replSpans] at hI
      · intro pr hpr; simp [sliceVals] at hpr
  obtain ⟨rel2, pm2, heq2, hinv2, hpres12, hlen2, hav2, hsv2⟩ :=
    hpresStep (if (['L', 'O', 'C', 'A', 'T', 'I', 'O', 'N'] ∈
        (if presidio_entities.getD [] ≠ [] then presidio_entities.getD []
        else PRESIDIO_ENTITIES)) ∧ phSpans 0 rel1 ≠ []
      then List.erase (if presidio_entities.getD [] ≠ [] then presidio_entities.getD []
        else PRESIDIO_ENTITIES) ['L', 'O', 'C', 'A', 'T', 'I', 'O', 'N']
      else (if presidio_entities.getD [] ≠ [] then presidio_entities.getD []
        else PRESIDIO_ENTITIES))
  rw [heq2] at hrun
  dsimp only at hrun
  simp only [Except.ok.injEq, Prod.mk.injEq] at hrun
  obtain ⟨h1, h2⟩ := hrun
  subst h1
  subst h2
  exact masked_restores hlt rfl rfl hext1 hph1 hlen2 hav2 hinv2
    (fun pr hpr => hpres12 _ _ (hsv1 pr hpr).2) (fun pr hpr => (hsv2 pr hpr).2)

/-- C1 counterexample to the round-trip law as stated: with the seed mapping
`{"<PERSON_1>": "John"}` and detectors that report nothing (so every
stated span-invariant and no-detector-match-is-a-placeholder proviso holds
vacuously), masking `"hi <PERSON_1> yo"` succeeds and returns the text
unchanged together with the seed mapping, but unmasking rewrites the
placeholder already present in the raw input to `"John"`, so the round trip
fails without an additional hypothesis on the input text. -/
theorem mask_unmask_roundtrip_cex :
    mask_sentence ("hi <PERSON_1> yo".data) true (fun _ _ => []) (fun _ => []) none
      (some [("<PERSON_1>".data, "John".data)])
      = Except.ok ("hi <PERSON_1> yo".data, [("<PERSON_1>".data, "John".data)]) ∧
    unmaskSentence ("hi <PERSON_1> yo".data) [("<PERSON_1>".data, "John".data)]
      ≠ "hi <PERSON_1> yo".data :=
  ⟨rfl, by decide⟩

/-- C1 witness: a concrete two-pass run (address pass masks `1 Elm St`,
general pass masks `Bob`) whose output the restorer maps back to the exact
input. -/
theorem mask_unmask_roundtrip_witness :
    unmaskSentence ("call <PERSON_1> at <LOCATION_1> now".data)
      [("<LOCATION_1>".data, "1 Elm St".data), ("<PERSON_1>".data, "Bob".data)]
      = "call Bob at 1 Elm St now".data :=
  @mask_unmask_roundtrip ("call Bob at 1 Elm St now".data)
    ("call <PERSON_1> at <LOCATION_1> now".data)
    [("<LOCATION_1>".data, "1 Elm St".data), ("<PERSON_1>".data, "Bob".data)]
    true
    (fun u _ => List.filter (fun r => resWfB u.length r)
      [⟨5, 8, 1, "PERSON".data⟩])
    (fun _ => [⟨12, 20, "1 Elm St".data⟩])
    none none
    (by decide) (by decide) (by decide) (by decide) (by decide) (by decide)
    (fun u es r hr => (List.mem_filter.mp hr).2)
    rfl

theorem placeholder_for_rev_pres {pm : PlaceholderManager} {e v ph : Str}
    (h : alookup pm.pii_to_placeholder (e, v) = some ph) (e2 v2 : Str) :
    alookup (placeholder_for pm e2 v2).2.pii_to_placeholder (e, v) = some ph := by
  unfold placeholder_for
  cases hl : alookup pm.pii_to_placeholder (e2, v2) with
  | some ph2 => exact h
  | none =>
    simp only
    by_cases hk : ((e, v) : Str × Str) = (e2, v2)
    · rw [hk] at h
      rw [h] at hl
      exact Option.noConfusion hl
    · rw [alookup_ainsert_ne _ _ _ _ hk]
      exact h

theorem placeholder_for_self_rev (pm : PlaceholderManager) (e v : Str) :
    alookup (placeholder_for pm e v).2.pii_to_placeholder (e, v)
      = some (placeholder_for pm e v).1 := by
  unfold placeholder_for
  cases hl : alookup pm.pii_to_placeholder (e, v) with
  | some ph => exact hl
  | none =>
    simp only
    rw [alookup_ainsert_self]

theorem placeholder_for_of_lookup {pm : PlaceholderManager} {e v ph : Str}
    (h : alookup pm.pii_to_placeholder (e, v) = some ph) :
    (placeholder_for pm e v).1 = ph := by
  unfold placeholder_for
  rw [h]

/-- C2.  Idempotent placeholder identity: for every registry state and every
(entity, value) pair, any later `placeholder_for` call for the same pair
during the registry’s lifetime — with an arbitrary list of other
`placeholder_for` calls interleaved — returns the token of the first call
identically; and a registry seeded with `{"<PERSON_1>": "John Doe"}` answers
`("PERSON", "John Doe")` with `<PERSON_1>` again, not `<PERSON_2>`. -/
theorem placeholder_for_idempotent :
    (∀ (pm : PlaceholderManager) (e v : Str) (calls : List (Str × Str)),
      (placeholder_for
        (calls.foldl (fun m q => (placeholder_for m q.1 q.2).2)
          (placeholder_for pm e v).2) e v).1
        = (placeholder_for pm e v).1) ∧
    (placeholder_for (PlaceholderManager.init [(("<PERSON_1>".data), "John Doe".data)])
      ("PERSON".data) ("John Doe".data)).1 = "<PERSON_1>".data := by
  constructor
  · intro pm e v calls
    have hfold : ∀ (cs : List (Str × Str)) (m : PlaceholderManager),
        alookup m.pii_to_placeholder (e, v) = some (placeholder_for pm e v).1 →
        alookup ((cs.foldl (fun m2 q => (placeholder_for m2 q.1 q.2).2) m)).pii_to_placeholder
          (e, v) = some (placeholder_for pm e v).1 := by
      intro cs
      induction cs with
      | nil => intro m hm; exact hm
      | cons q qs ih =>
        intro m hm
        rw [List.foldl_cons]
        exact ih _ (placeholder_for_rev_pres hm q.1 q.2)
    exact placeholder_for_of_lookup (hfold calls _ (placeholder_for_self_rev pm e v))
  · decide

/-- C3.  No-overlap merge invariant: for every candidate list, excluded-region
set and known-placeholder set, the spans chosen by the general pass — sort by
(start ascending, length descending, score descending), then greedily accept
a candidate iff its start is at or beyond the end of the last accepted span —
are pairwise disjoint and sorted by start offset. -/
theorem greedy_selection_disjoint_sorted
    {text : List Char} {keys : List Str} {excl : List (Nat × Nat)}
    {results : List RecognizerResult}
    (hwf : ∀ r ∈ results, r.start < r.stop) :
    (greedySelect text keys excl (List.insertionSort resultLE results) (-1)).Pairwise
      (fun a c => a.stop ≤ c.start ∧ a.start ≤ c.start) := by
  have hperm := List.perm_insertionSort resultLE results
  have hwfs : ∀ x ∈ List.insertionSort resultLE results, x.start < x.stop :=
    fun x hx => hwf x (hperm.mem_iff.mp hx)
  have hpw := @greedySelect_pairwise text keys excl
    (List.insertionSort resultLE results) (-1) hwfs
  refine List.Pairwise.imp_of_mem ?_ hpw
  intro a c ha hc hle
  have haw : a.start < a.stop := hwfs a (greedySelect_subset _ _ a ha)
  exact ⟨hle, by omega⟩

/-- C3 witness: two overlapping concrete candidates; the greedy pass keeps
the first and permanently drops the one starting inside it, and the chosen
list is disjoint and start-sorted. -/
theorem greedy_selection_disjoint_sorted_witness :
    (∀ r ∈ [(⟨0, 2, 1, "PERSON".data⟩ : RecognizerResult), ⟨1, 3, 1, "PERSON".data⟩],
      r.start < r.stop) ∧
    (greedySelect [] [] []
      (List.insertionSort resultLE
        [(⟨0, 2, 1, "PERSON".data⟩ : RecognizerResult), ⟨1, 3, 1, "PERSON".data⟩]) (-1)).Pairwise
      (fun a c => a.stop ≤ c.start ∧ a.start ≤ c.start) :=
  ⟨by decide, greedy_selection_disjoint_sorted (by decide)⟩

/-- C4.  Idempotency guard: every span chosen by the greedy pass has a
matched substring outside the known-placeholder key set — a candidate whose
matched text is a known placeholder token is discarded — while a candidate
whose matched text merely equals an already-masked original value (here
`"John"`, the value seeded for `<PERSON_1>`) passes the guard and is
selected. -/
theorem presidio_idempotency_guard :
    (∀ (text : List Char) (keys : List Str) (excl : List (Nat × Nat))
      (rs : List RecognizerResult) (lastEnd : Int),
      ∀ x ∈ greedySelect text keys excl rs lastEnd, sliceOf text x.start x.stop ∉ keys) ∧
    (greedySelect ("John".data)
        (((PlaceholderManager.init [(("<PERSON_1>".data), "John".data)]).mappings).map Prod.fst)
        [] [⟨0, 4, 1, "PERSON".data⟩] (-1)
      = [⟨0, 4, 1, "PERSON".data⟩]) := by
  constructor
  · intro text keys excl rs lastEnd x hx
    exact greedySelect_noKey rs lastEnd x hx
  · decide

theorem splice_length : ∀ (rel : List RelRep) (t : List Char),
    extent rel ≤ t.length →
    ((splice t rel).length : Int) = (t.length : Int) + offDelta rel := by
  intro rel
  induction rel with
  | nil => intro t _; simp [splice, offDelta]
  | cons r rs ih =>
    intro t hext
    simp only [extent] at hext
    have hrec := ih (t.drop (r.gap + r.len)) (by rw [List.length_drop]; omega)
    simp only [splice, offDelta, List.length_append, List.length_take]
    rw [List.length_drop] at hrec
    push_cast
    omega

theorem offDelta_toRel {n : Nat} : ∀ (reps : List Replacement) (b : Nat),
    repChainB b n reps = true →
    offDelta (toRel b reps) = (reps.map (fun r =>
      (r.placeholder.length : Int) - ((r.stop : Int) - (r.start : Int)))).sum := by
  intro reps
  induction reps with
  | nil => intro b _; simp [toRel, offDelta]
  | cons r rs ih =>
    intro b hchain
    obtain ⟨h1, h2, h3, h4⟩ := repChainB_cons.mp hchain
    simp only [toRel, offDelta, List.map_cons, List.sum_cons]
    rw [ih r.stop h4]
    have : ((r.stop - r.start : Nat) : Int) = (r.stop : Int) - (r.start : Int) := by omega
    omega

/-- C5.  Length accounting and frame: applied to a chained, in-bounds span
list, each rewrite pass (address pass fold and general pass fold) produces
exactly the reference splice of its input — so every character outside the
replaced spans is preserved verbatim and in its original relative order —
and the output length equals the input length plus the sum over applied
spans of `len(placeholder) - (end - start)`. -/
theorem rewrite_pass_length_frame {t : List Char} {reps : List Replacement}
    {chosen : List RecognizerResult} {pm : PlaceholderManager}
    (hrep : repChainB 0 t.length reps = true)
    (hres : resChainB 0 t.length chosen = true) :
    (reps.foldl addrApplyStep ((t, 0), [])).1.1 = splice t (toRel 0 reps) ∧
    (((reps.foldl addrApplyStep ((t, 0), [])).1.1).length : Int)
      = (t.length : Int) + (reps.map (fun r =>
          (r.placeholder.length : Int) - ((r.stop : Int) - (r.start : Int)))).sum ∧
    (chosen.foldl presidioApplyStep ((t, 0), pm)).1.1
      = splice t (presidioChosenRel pm t 0 chosen).1 ∧
    (((chosen.foldl presidioApplyStep ((t, 0), pm)).1.1).length : Int)
      = (t.length : Int) + offDelta (presidioChosenRel pm t 0 chosen).1 := by
  have hz : ((0 : Int) - (0 : Int)) = (0 : Int) := by omega
  have hfoldA := addrFold_spec (t := t) reps [] [] 0 hrep
  simp only [List.nil_append, List.drop_zero, List.length_nil, Nat.cast_zero] at hfoldA
  rw [hz] at hfoldA
  have hfoldP := presidioFold_spec chosen pm [] 0 hres
  simp only [List.nil_append, List.drop_zero, List.length_nil, Nat.cast_zero] at hfoldP
  rw [hz] at hfoldP
  have hextA : extent (toRel 0 reps) ≤ t.length := by
    have := toRel_extent (n := t.length) reps 0 hrep
    omega
  have hextP : extent (presidioChosenRel pm t 0 chosen).1 ≤ t.length := by
    have := presidioRel_extent chosen pm 0 hres
    omega
  refine ⟨?_, ?_, ?_, ?_⟩
  · rw [hfoldA]
  · rw [hfoldA]
    rw [splice_length _ t hextA, offDelta_toRel (n := t.length) reps 0 hrep]
  · rw [hfoldP]
  · rw [hfoldP]
    rw [splice_length _ t hextP]

/-- C5 witness: one concrete address replacement and one concrete general
pass span on the text `"abcdef"`, with the length accounting and splice
frame evaluated. -/
theorem rewrite_pass_length_frame_witness :
    repChainB 0 ("abcdef".data).length [⟨1, 3, "<L_1>".data⟩] = true ∧
    resChainB 0 ("abcdef".data).length [⟨2, 4, 1, "PERSON".data⟩] = true ∧
    (([(⟨1, 3, "<L_1>".data⟩ : Replacement)].foldl addrApplyStep (("abcdef".data, 0), [])).1.1
        = splice ("abcdef".data) (toRel 0 [⟨1, 3, "<L_1>".data⟩]) ∧
      ((([(⟨1, 3, "<L_1>".data⟩ : Replacement)].foldl addrApplyStep
          (("abcdef".data, 0), [])).1.1).length : Int)
        = (("abcdef".data).length : Int) + ([(⟨1, 3, "<L_1>".data⟩ : Replacement)].map (fun r =>
            (r.placeholder.length : Int) - ((r.stop : Int) - (r.start : Int)))).sum ∧
      ([(⟨2, 4, 1, "PERSON".data⟩ : RecognizerResult)].foldl presidioApplyStep
          (("abcdef".data, 0), PlaceholderManager.init [])).1.1
        = splice ("abcdef".data)
            (presidioChosenRel (PlaceholderManager.init []) ("abcdef".data) 0
              [⟨2, 4, 1, "PERSON".data⟩]).1 ∧
      ((([(⟨2, 4, 1, "PERSON".data⟩ : RecognizerResult)].foldl presidioApplyStep
          (("abcdef".data, 0), PlaceholderManager.init [])).1.1).length : Int)
        = (("abcdef".data).length : Int)
          + offDelta (presidioChosenRel (PlaceholderManager.init []) ("abcdef".data) 0
              [⟨2, 4, 1, "PERSON".data⟩]).1) :=
  ⟨by decide, by decide, rewrite_pass_length_frame (by decide) (by decide)⟩

theorem foldRepl_nocross {m : List (Str × Str)} {p : Str} (hp : canonB p = true) :
    ∀ (ks : List Str), (∀ k ∈ ks, canonB k = true ∧ k ≠ p) → ∀ (X Y : Str),
    ks.foldl (fun result ph => pyReplace result ph ((alookup m ph).getD [])) (X ++ p ++ Y)
      = ks.foldl (fun result ph => pyReplace result ph ((alookup m ph).getD [])) X ++ p ++
        ks.foldl (fun result ph => pyReplace result ph ((alookup m ph).getD [])) Y := by
  intro ks
  induction ks with
  | nil => intro _ X Y; simp
  | cons k ks ih =>
    intro hks X Y
    obtain ⟨hc, hne⟩ := hks k (List.mem_cons_self _ _)
    simp only [List.foldl_cons]
    have hstep : pyReplace (X ++ p ++ Y) k ((alookup m k).getD [])
        = pyReplace X k ((alookup m k).getD []) ++ p ++
          pyReplace Y k ((alookup m k).getD []) := by
      rw [pyReplace_of_ne_nil (canon_ne_nil hc), pyReplace_of_ne_nil (canon_ne_nil hc),
        pyReplace_of_ne_nil (canon_ne_nil hc)]
      rw [List.append_assoc]
      rw [pyReplaceN_nocross hc hp hne X.length X le_rfl Y]
      rw [← List.append_assoc]
    rw [hstep]
    exact ih (fun k2 h2 => hks k2 (List.mem_cons_of_mem _ h2)) _ _

theorem replaceAllKeys_nocross {m : List (Str × Str)} {p : Str}
    (hk : ∀ q ∈ m, canonB q.1 = true) (hp : canonB p = true)
    (hnp : p ∉ m.map Prod.fst) (X Y : Str) :
    replaceAllKeys m (X ++ p ++ Y) = replaceAllKeys m X ++ p ++ replaceAllKeys m Y := by
  unfold replaceAllKeys
  apply foldRepl_nocross hp
  intro k hk2
  have hmem : k ∈ m.map Prod.fst :=
    (List.perm_insertionSort keyLenGE (m.map Prod.fst)).mem_iff.mp hk2
  obtain ⟨q, hq, he⟩ := List.mem_map.mp hmem
  refine ⟨he ▸ hk q hq, ?_⟩
  intro hEq
  exact hnp (hEq ▸ hmem)

/-- C6 (amended).  Restorer contract: the keys are processed by decreasing
token length; empty text or empty mapping short-circuits to the text
unchanged; and when every mapping key is a canonical `<...>` token, a
canonical placeholder with no entry in the mapping is left untouched
verbatim (the flanks being restored independently).  The untouched
guarantee needs the canonical-key hypothesis: a non-canonical key may
rewrite the interior of an unrelated placeholder. -/
theorem unmask_restorer_contract {m : List (Str × Str)} {X Y p : Str}
    (hk : ∀ q ∈ m, canonB q.1 = true)
    (hp : canonB p = true)
    (hnp : p ∉ m.map Prod.fst)
    (hm : m ≠ []) :
    unmaskSentence (X ++ p ++ Y) m = replaceAllKeys m X ++ p ++ replaceAllKeys m Y ∧
    (∀ t : List Char, unmaskSentence t [] = t) ∧
    (∀ m2 : List (Str × Str), unmaskSentence [] m2 = []) := by
  refine ⟨?_, fun t => by simp [unmaskSentence], fun m2 => by simp [unmaskSentence]⟩
  have hpne : p ≠ [] := canon_ne_nil hp
  have htne : X ++ p ++ Y ≠ [] := by simp [hpne]
  rw [unmaskSentence, if_neg (not_or.mpr ⟨htne, hm⟩)]
  exact replaceAllKeys_nocross hk hp hnp X Y

/-- C6 counterexample to the untouched-placeholder guarantee as stated for
arbitrary mappings: with the mapping `{"SON_1": "X"}`, the text
`"<PERSON_1>"` — whose placeholder has no entry in the mapping — is not
left untouched: the restorer rewrites it to `"<PERX>"`, which no longer
contains the placeholder at all. -/
theorem unmask_restorer_contract_cex :
    unmaskSentence ("<PERSON_1>".data) [(("SON_1".data), "X".data)] = "<PERX>".data ∧
    ¬ ("<PERSON_1>".data <:+: "<PERX>".data) := by decide

/-- C6 witness: a seeded one-key mapping leaves the unrelated canonical
placeholder `<LOCATION_2>` untouched while restoring the flanks. -/
theorem unmask_restorer_contract_witness :
    (∀ q ∈ [(("<PERSON_1>".data), "John".data)], canonB q.1 = true) ∧
    canonB ("<LOCATION_2>".data) = true ∧
    ("<LOCATION_2>".data) ∉ [(("<PERSON_1>".data), "John".data)].map Prod.fst ∧
    ([(("<PERSON_1>".data), "John".data)] : List (Str × Str)) ≠ [] ∧
    (unmaskSentence ("hi <PERSON_1> ".data ++ "<LOCATION_2>".data ++ " ok".data)
        [(("<PERSON_1>".data), "John".data)]
      = replaceAllKeys [(("<PERSON_1>".data), "John".data)] ("hi <PERSON_1> ".data)
        ++ "<LOCATION_2>".data
        ++ replaceAllKeys [(("<PERSON_1>".data), "John".data)] (" ok".data) ∧
      (∀ t : List Char, unmaskSentence t [] = t) ∧
      (∀ m2 : List (Str × Str), unmaskSentence [] m2 = [])) :=
  ⟨by decide, by decide, by decide, by decide,
    unmask_restorer_contract (by decide) (by decide) (by decide) (by decide)⟩

/-- C7 (amended).  Empty-input fast path: for empty input text,
`mask_sentence` returns `("", {})` — empty masked output and empty mapping,
the seed mapping not echoed back — for every request whose entity-type list
passes validation (it is empty, omitted, or names only known types).  The
unrestricted claim fails because type validation runs before the empty-input
check. -/
theorem mask_empty_input {analyzerPresent : Bool}
    {analyze : List Char → List Str → List RecognizerResult}
    {addrDetect : List Char → List AddrMatch}
    {presidio_entities : Option (List Str)} {seed : Option (List (Str × Str))}
    (hval : (presidio_entities.getD []).filter (fun e => e ∉ PRESIDIO_ENTITIES) = []) :
    mask_sentence [] analyzerPresent analyze addrDetect presidio_entities seed
      = Except.ok ([], []) := by
  simp only [mask_sentence]
  rw [if_neg (fun hc => hc.2 hval), if_pos trivial]

/-- C7 counterexample to the unrestricted fast path: an empty input text
with an unknown requested entity type is rejected with the 422 error, not
answered with `("", {})`. -/
theorem mask_empty_input_cex :
    mask_sentence [] true (fun _ _ => []) (fun _ => []) (some [("BOGUS".data)]) none
      = Except.error (422, [("BOGUS".data)]) := rfl

/-- C7 witness: empty input with a valid entity list and a nonempty seed
returns empty output and an empty mapping; the seed is not echoed back. -/
theorem mask_empty_input_witness :
    (((some [("PERSON".data)] : Option (List Str)).getD []).filter
      (fun e => e ∉ PRESIDIO_ENTITIES) = []) ∧
    mask_sentence [] true (fun _ _ => []) (fun _ => []) (some [("PERSON".data)])
      (some [(("<PERSON_1>".data), "John".data)])
      = Except.ok ([], []) :=
  ⟨by decide, mask_empty_input (by decide)⟩

/-- C8.  Unknown-type rejection: a non-empty requested entity-type list
containing a type outside `PRESIDIO_ENTITIES` makes `mask_sentence` return
the 422 client error naming exactly the offending types, for every input
text, seed and detector oracle — so no detection work can influence the
outcome and no mapping is produced. -/
theorem mask_invalid_entities {sentence : List Char} {analyzerPresent : Bool}
    {analyze : List Char → List Str → List RecognizerResult}
    {addrDetect : List Char → List AddrMatch}
    {pes : List Str} {seed : Option (List (Str × Str))}
    (hne : pes ≠ [])
    (hbad : pes.filter (fun e => e ∉ PRESIDIO_ENTITIES) ≠ []) :
    mask_sentence sentence analyzerPresent analyze addrDetect (some pes) seed
      = Except.error (422, pes.filter (fun e => e ∉ PRESIDIO_ENTITIES)) := by
  simp only [mask_sentence]
  rw [if_pos ⟨hne, hbad⟩]
  rfl

/-- C8 witness: the request naming `BOGUS` beside the valid `PERSON` is
rejected with the 422 error listing exactly `BOGUS`, detectors untouched. -/
theorem mask_invalid_entities_witness :
    ((["BOGUS".data, "PERSON".data] : List Str) ≠ []) ∧
    (["BOGUS".data, "PERSON".data].filter (fun e => e ∉ PRESIDIO_ENTITIES) ≠ []) ∧
    mask_sentence ("hi".data) true (fun _ _ => []) (fun _ => [])
      (some ["BOGUS".data, "PERSON".data]) none
      = Except.error (422, [("BOGUS".data)]) :=
  ⟨by decide, by decide,
    @mask_invalid_entities ("hi".data) true (fun _ _ => []) (fun _ => [])
      ["BOGUS".data, "PERSON".data] none (by decide) (by decide)⟩

/-- C10.  An empty requested entity-type list behaves exactly as an omitted
one: the run is identical to the `None` request (hence uses the full default
`PRESIDIO_ENTITIES` set for both passes), and validation never rejects it. -/
theorem empty_entities_as_omitted (sentence : List Char) (analyzerPresent : Bool)
    (analyze : List Char → List Str → List RecognizerResult)
    (addrDetect : List Char → List AddrMatch)
    (seed : Option (List (Str × Str))) :
    mask_sentence sentence analyzerPresent analyze addrDetect (some []) seed
      = mask_sentence sentence analyzerPresent analyze addrDetect none seed ∧
    ∀ err, mask_sentence sentence analyzerPresent analyze addrDetect (some []) seed
      ≠ Except.error err := by
  refine ⟨rfl, ?_⟩
  intro err h
  simp only [mask_sentence] at h
  rw [if_neg (fun hc => hc.1 rfl)] at h
  by_cases hs : sentence = []
  · rw [if_pos hs] at h
    exact Except.noConfusion h
  · rw [if_neg hs] at h
    exact Except.noConfusion h

theorem initFold_filter : ∀ (l : List (Str × Str)) (pm0 : PlaceholderManager),
    l.foldl initStep pm0
      = (l.filter (fun p => (parsePlaceholder p.1).isSome)).foldl initStep pm0 := by
  intro l
  induction l with
  | nil => intro pm0; rfl
  | cons p ps ih =>
    intro pm0
    cases hp : parsePlaceholder p.1 with
    | none =>
      have hstep : initStep pm0 p = pm0 := by unfold initStep; rw [hp]
      rw [List.foldl_cons, hstep, ih, List.filter_cons]
      simp [hp]
    | some en =>
      rw [List.foldl_cons, ih, List.filter_cons]
      simp only [hp, Option.isSome_some, if_pos]
      rw [List.foldl_cons]

theorem alookup_ainsert_isSome {α β : Type} [DecidableEq α] {l : List (α × β)} {k k2 : α}
    {v : β} (h : (alookup l k2).isSome = true) :
    (alookup (ainsert l k v) k2).isSome = true := by
  by_cases hk : k2 = k
  · subst hk
    rw [alookup_ainsert_self]
    rfl
  · rw [alookup_ainsert_ne _ _ _ _ hk]
    exact h

theorem initFold_rev_present : ∀ (l : List (Str × Str)) (pm0 : PlaceholderManager)
    (key : Str × Str),
    ((alookup pm0.pii_to_placeholder key).isSome = true ∨
      ∃ p ∈ l, ∃ en, parsePlaceholder p.1 = some en ∧ key = (en.1, p.2)) →
    (alookup (l.foldl initStep pm0).pii_to_placeholder key).isSome = true := by
  intro l
  induction l with
  | nil =>
    intro pm0 key h
    rcases h with h | ⟨p, hp, -⟩
    · exact h
    · simp at hp
  | cons p ps ih =>
    intro pm0 key h
    rw [List.foldl_cons]
    apply ih
    rcases h with h | ⟨p2, hp2, en, hen, hkey⟩
    · left
      unfold initStep
      cases hp : parsePlaceholder p.1 with
      | none => exact h
      | some en => exact alookup_ainsert_isSome h
    · rcases List.mem_cons.mp hp2 with hp2 | hp2
      · left
        subst hp2
        unfold initStep
        rw [hen]
        simp only
        rw [hkey, alookup_ainsert_self]
        rfl
      · right
        exact ⟨p2, hp2, en, hen, hkey⟩

theorem mint_fresh {pm : PlaceholderManager} {e v : Str}
    (hinv : PMInv pm) (he : classOkB e = true)
    (hnew : alookup pm.pii_to_placeholder (e, v) = none) :
    alookup pm.placeholder_to_pii (placeholder_for pm e v).1 = none := by
  obtain ⟨hnd, hcv, hcnt, hrev⟩ := hinv
  unfold placeholder_for
  rw [hnew]
  simp only
  have hparse : parsePlaceholder
      ('<' :: (e ++ '_' :: (natDigits (clookup pm.entity_counters e + 1) ++ ['>'])))
      = some (e, clookup pm.entity_counters e + 1) := parse_minted he
  cases hw : alookup pm.placeholder_to_pii
      ('<' :: (e ++ '_' :: (natDigits (clookup pm.entity_counters e + 1) ++ ['>']))) with
  | none => rfl
  | some w =>
    have hm := mem_of_alookup hw
    have hle := hcnt _ hm (e, clookup pm.entity_counters e + 1) hparse
    simp only at hle
    omega

/-- C9 (amended).  Malformed-seed tolerance: seeding is total and skips every
seed key that fails the canonical pattern — the registry equals the fold over
just the parseable entries — while for each well-formed key the entity
counter is raised to at least the parsed suffix and the reverse index holds
an entry for its (entity type, original value) pointing at a well-formed
seed key carrying that same original value (the last one seeded, not
necessarily the key itself, when several seeded keys share a value); and for
any seed, malformed entries merely skipped, a freshly minted placeholder
never collides with any seeded key (in particular with the well-formed
ones): the mint is itself canonical and its parsed suffix exceeds the
dominated counters. -/
theorem seed_init_tolerant {seed : List (Str × Str)}
    (hnd : (seed.map Prod.fst).Nodup) :
    (PlaceholderManager.init seed
      = (seed.filter (fun p => (parsePlaceholder p.1).isSome)).foldl initStep
          { placeholder_to_pii := seed, pii_to_placeholder := [], entity_counters := [] }) ∧
    (∀ p ∈ seed, ∀ en, parsePlaceholder p.1 = some en →
      en.2 ≤ clookup (PlaceholderManager.init seed).entity_counters en.1) ∧
    (∀ q ∈ (PlaceholderManager.init seed).pii_to_placeholder,
      alookup seed q.2 = some q.1.2) ∧
    (∀ p ∈ seed, ∀ en, parsePlaceholder p.1 = some en →
      ∃ k, alookup (PlaceholderManager.init seed).pii_to_placeholder (en.1, p.2) = some k ∧
        alookup seed k = some p.2) ∧
    (∀ e v : Str, classOkB e = true →
      alookup (PlaceholderManager.init seed).pii_to_placeholder (e, v) = none →
      (placeholder_for (PlaceholderManager.init seed) e v).1 ∉ seed.map Prod.fst) := by
  obtain ⟨-, hrev, hcnt⟩ := init_spec hnd
  refine ⟨?_, hcnt, hrev, ?_, ?_⟩
  · unfold PlaceholderManager.init
    exact initFold_filter seed _
  · intro p hp en hen
    have hsome : (alookup (PlaceholderManager.init seed).pii_to_placeholder
        (en.1, p.2)).isSome = true :=
      initFold_rev_present seed
        { placeholder_to_pii := seed, pii_to_placeholder := [], entity_counters := [] }
        (en.1, p.2) (Or.inr ⟨p, hp, en, hen, rfl⟩)
    obtain ⟨k, hk⟩ := Option.isSome_iff_exists.mp hsome
    exact ⟨k, hk, hrev _ (mem_of_alookup hk)⟩
  · intro e v he hnew hmem
    have hmint : (placeholder_for (PlaceholderManager.init seed) e v).1
        = '<' :: (e ++ '_' :: (natDigits
            (clookup (PlaceholderManager.init seed).entity_counters e + 1) ++ ['>'])) := by
      unfold placeholder_for
      rw [hnew]
    obtain ⟨p, hp, hpe⟩ := List.mem_map.mp hmem
    have hparse : parsePlaceholder p.1
        = some (e, clookup (PlaceholderManager.init seed).entity_counters e + 1) := by
      rw [hpe, hmint]
      exact parse_minted he
    have hle := hcnt p hp _ hparse
    simp only at hle
    omega

/-- C9 counterexample to the per-key reverse-index guarantee: the two
well-formed seed keys `<PERSON_1>` and `<PERSON_2>` share the original value
`"John"`; the reverse index maps `("PERSON", "John")` to `<PERSON_2>`, so it
does not map the (entity type, original value) of the well-formed key
`<PERSON_1>` to that key. -/
theorem seed_init_tolerant_cex :
    alookup (PlaceholderManager.init
        [(("<PERSON_1>".data), "John".data),
         (("<PERSON_2>".data), "John".data)]).pii_to_placeholder
        (("PERSON".data), "John".data) = some ("<PERSON_2>".data) ∧
    ("<PERSON_1>".data, "John".data) ∈
      [(("<PERSON_1>".data), "John".data), (("<PERSON_2>".data), "John".data)] ∧
    parsePlaceholder ("<PERSON_1>".data) = some (("PERSON".data), 1) ∧
    some ("<PERSON_2>".data) ≠ some ("<PERSON_1>".data) := by decide

/-- C9 witness: a seed with one well-formed and one malformed key, applied
to the amended tolerance theorem. -/
theorem seed_init_tolerant_witness :
    ((([(("<PERSON_1>".data), "John".data), (("oops".data), "x".data)] : List (Str × Str)).map
      Prod.fst).Nodup) ∧
    ((PlaceholderManager.init [(("<PERSON_1>".data), "John".data), (("oops".data), "x".data)]
      = ([(("<PERSON_1>".data), "John".data), (("oops".data), "x".data)].filter
          (fun p => (parsePlaceholder p.1).isSome)).foldl initStep
          { placeholder_to_pii :=
              [(("<PERSON_1>".data), "John".data), (("oops".data), "x".data)],
            pii_to_placeholder := [], entity_counters := [] }) ∧
    (∀ p ∈ [(("<PERSON_1>".data), "John".data), (("oops".data), "x".data)],
      ∀ en, parsePlaceholder p.1 = some en →
      en.2 ≤ clookup (PlaceholderManager.init
        [(("<PERSON_1>".data), "John".data), (("oops".data), "x".data)]).entity_counters en.1) ∧
    (∀ q ∈ (PlaceholderManager.init
        [(("<PERSON_1>".data), "John".data), (("oops".data), "x".data)]).pii_to_placeholder,
      alookup [(("<PERSON_1>".data), "John".data), (("oops".data), "x".data)] q.2
        = some q.1.2) ∧
    (∀ p ∈ [(("<PERSON_1>".data), "John".data), (("oops".data), "x".data)],
      ∀ en, parsePlaceholder p.1 = some en →
      ∃ k, alookup (PlaceholderManager.init
          [(("<PERSON_1>".data), "John".data), (("oops".data), "x".data)]).pii_to_placeholder
          (en.1, p.2) = some k ∧
        alookup [(("<PERSON_1>".data), "John".data), (("oops".data), "x".data)] k
          = some p.2) ∧
    (∀ e v : Str, classOkB e = true →
      alookup (PlaceholderManager.init
        [(("<PERSON_1>".data), "John".data), (("oops".data), "x".data)]).pii_to_placeholder
        (e, v) = none →
      (placeholder_for (PlaceholderManager.init
          [(("<PERSON_1>".data), "John".data), (("oops".data), "x".data)]) e v).1
        ∉ [(("<PERSON_1>".data), "John".data), (("oops".data), "x".data)].map Prod.fst)) :=
  ⟨by decide, seed_init_tolerant (by decide)⟩
